import Mathlib

/-!
Verification development for the gomori rules engine (`src/gomori/src/board.rs`).

The board module itself (`Board`, `Diff`, `CalculatedEffects` and their methods) is
translated directly from `board.rs`.  The supporting modules it uses (`bbox.rs`,
`bitboard.rs`, `compact_field.rs` and the card/suit/rank types) are not part of the
sources at hand, so they are modelled from the specification, each such definition
carrying a doc comment saying so.

Machine-integer conventions: coordinates are Rust `i8` values, modelled as `Int`.
Where the source performs `i8` arithmetic whose overflow behaviour is observable
(`playable_area`, the neighbour offsets in `fields_to_flip`), the arithmetic is
modelled with two's-complement wrap-around (`wrap8`), i.e. Rust release-mode
semantics; `is_in_bounds` uses `checked_sub`, modelled by `checkedSub`.
-/

/-- Modelled from the spec: the four card suits (the suit encoding lives outside the
given sources). -/
inductive Suit
  | diamond
  | heart
  | spade
  | club
  deriving DecidableEq

/-- Modelled from the spec: card ranks; Jack, Queen and King carry special abilities. -/
inductive Rank
  | two
  | three
  | four
  | five
  | six
  | seven
  | eight
  | nine
  | ten
  | jack
  | queen
  | king
  | ace
  deriving DecidableEq

/-- Modelled from the spec: a card is a suit plus a rank. -/
structure Card where
  rank : Rank
  suit : Suit
  deriving DecidableEq

/-- Modelled from the spec: a set of cards (`CardsSet` in the sources). -/
abbrev CardsSet := Finset Card

/-- Modelled from the spec: one occupied cell as exchanged at the construction
boundary: coordinate, optional visible top card, set of hidden cards. -/
structure Field' where
  i : Int
  j : Int
  top_card : Option Card
  hidden_cards : Finset Card
  deriving DecidableEq

/-- Modelled from the spec: one cell's card stack, a visible top card plus a hidden
(covered) set. -/
structure CompactField where
  top_card : Option Card
  hidden_cards : Finset Card
  deriving DecidableEq

/-- Modelled from the spec: a fresh, empty placeholder field. -/
def CompactField.new : CompactField := ⟨none, ∅⟩

/-- Modelled from the spec: conversion of a `Field` into a `CompactField`. -/
def CompactField.fromField (f : Field') : CompactField := ⟨f.top_card, f.hidden_cards⟩

/-- Modelled from the spec: push the current top card (if any) into the hidden set and
set the new top card; legality is checked by the caller beforehand. -/
def CompactField.place_card (f : CompactField) (c : Card) : CompactField :=
  ⟨some c, f.hidden_cards ∪ f.top_card.toFinset⟩

/-- Modelled from the spec: move the top card into the hidden set, leaving no visible
card. -/
def CompactField.turn_face_down (f : CompactField) : CompactField :=
  ⟨none, f.hidden_cards ∪ f.top_card.toFinset⟩

/-- Modelled from the spec: a card may be placed if there is no top card, or the current
top card legally accepts it.  The compatibility rule `can_be_placed_on` is an external
predicate the core depends on but does not define, so it is a parameter `canPlace`
(`canPlace c t` means: `c` can be placed on `t`). -/
def CompactField.can_place_card (canPlace : Card → Card → Bool) (f : CompactField)
    (c : Card) : Bool :=
  match f.top_card with
  | none => true
  | some t => canPlace c t

/-- Modelled from the spec: the union of the top card and the hidden cards. -/
def CompactField.all_cards (f : CompactField) : Finset Card :=
  f.hidden_cards ∪ f.top_card.toFinset

/-- Modelled from the spec: true only for a fresh, unused field. -/
def CompactField.is_empty (f : CompactField) : Prop :=
  f.top_card = none ∧ f.hidden_cards = ∅

instance (f : CompactField) : Decidable f.is_empty := by
  unfold CompactField.is_empty
  infer_instance

/-- The rejection taxonomy, translated from `IllegalCardPlayed` as used in `board.rs`. -/
inductive IllegalCardPlayed
  | outOfBounds
  | incompatibleCard (existing_card : Card)
  | noTargetForKingAbility
  | targetForKingAbilityDoesNotExist (tgt_i tgt_j : Int)
  | targetForKingAbilityIsFaceDown (tgt_i tgt_j : Int)
  deriving DecidableEq

/-- Modelled from the spec: a mutation request: card, target coordinate, optional
King-ability target coordinate. -/
structure CardToPlay where
  card : Card
  i : Int
  j : Int
  target_field_for_king_ability : Option (Int × Int)
  deriving DecidableEq

/-- Two's-complement wrap-around of signed 8-bit arithmetic (Rust release-mode
overflow semantics). -/
def wrap8 (x : Int) : Int := (x + 128) % 256 - 128

/-- Rust `i8::checked_sub`: `none` exactly when the exact difference leaves the
`i8` range. -/
def checkedSub (a b : Int) : Option Int :=
  if -128 ≤ a - b ∧ a - b ≤ 127 then some (a - b) else none

/-- Modelled from the spec: the minimal axis-aligned rectangle of occupied
coordinates. -/
structure BoundingBox where
  i_min : Int
  j_min : Int
  i_max : Int
  j_max : Int
  deriving DecidableEq

/-- Modelled from the spec: a zero-size box seeded at one coordinate. -/
def BoundingBox.singleton (i j : Int) : BoundingBox := ⟨i, j, i, j⟩

/-- Modelled from the spec: monotonically extend the bounds to cover `(i, j)`. -/
def BoundingBox.update (bb : BoundingBox) (i j : Int) : BoundingBox :=
  ⟨min bb.i_min i, min bb.j_min j, max bb.i_max i, max bb.j_max j⟩

/-- Modelled from the spec: inclusive span plus one, `i` axis. -/
def BoundingBox.size_i (bb : BoundingBox) : Int := bb.i_max - bb.i_min + 1

/-- Modelled from the spec: inclusive span plus one, `j` axis. -/
def BoundingBox.size_j (bb : BoundingBox) : Int := bb.j_max - bb.j_min + 1

/-- Membership of a coordinate in the rectangle described by a bounding box. -/
def BoundingBox.contains_point (bb : BoundingBox) (i j : Int) : Prop :=
  bb.i_min ≤ i ∧ i ≤ bb.i_max ∧ bb.j_min ≤ j ∧ j ≤ bb.j_max

instance (bb : BoundingBox) (i j : Int) : Decidable (bb.contains_point i j) := by
  unfold BoundingBox.contains_point
  infer_instance

/-- Modelled from the spec: a bit-packed coordinate set tagged with a reference center.
It is modelled abstractly as a finite coordinate set (the spec's array-of-booleans
keyed by offset-from-center reading), since every reachable operation stays inside the
window around the center. -/
structure BitBoard where
  center : Int × Int
  coords : Finset (Int × Int)
  deriving DecidableEq

/-- Modelled from the spec: the empty set with the given center. -/
def BitBoard.empty_board_centered_at (c : Int × Int) : BitBoard := ⟨c, ∅⟩

/-- Modelled from the spec: insert one coordinate. -/
def BitBoard.insert (bb : BitBoard) (i j : Int) : BitBoard :=
  ⟨bb.center, Insert.insert (i, j) bb.coords⟩

/-- Modelled from the spec: remove one coordinate. -/
def BitBoard.remove (bb : BitBoard) (i j : Int) : BitBoard :=
  ⟨bb.center, bb.coords.erase (i, j)⟩

/-- Modelled from the spec: membership test. -/
def BitBoard.contains (bb : BitBoard) (i j : Int) : Bool :=
  decide ((i, j) ∈ bb.coords)

/-- Modelled from the spec: bitwise union (valid between boards sharing a center). -/
def BitBoard.union (a b : BitBoard) : BitBoard := ⟨a.center, a.coords ∪ b.coords⟩

/-- Modelled from the spec: bitwise difference (valid between boards sharing a
center). -/
def BitBoard.difference (a b : BitBoard) : BitBoard := ⟨a.center, a.coords \ b.coords⟩

/-- Modelled from the spec: bulk rectangle insert. -/
def BitBoard.insert_area (bb : BitBoard) (i_min j_min i_max j_max : Int) : BitBoard :=
  ⟨bb.center, bb.coords ∪ Finset.Icc i_min i_max ×ˢ Finset.Icc j_min j_max⟩

/-- Modelled from the spec: emptiness test. -/
def BitBoard.is_empty (bb : BitBoard) : Bool := decide (bb.coords = ∅)

/-- The four line directions: row, column, diagonal, anti-diagonal. -/
def line_dirs : List (Int × Int) := [(0, 1), (1, 0), (1, 1), (1, -1)]

/-- The run of four consecutive coordinates in direction `d` whose `k`-th entry
(counting from zero) is the point `(i, j)`. -/
def line_window (i j : Int) (d : Int × Int) (k : Nat) : Finset (Int × Int) :=
  (Finset.range 4).image
    (fun (t : Nat) => (i + ((t : Int) - (k : Int)) * d.1, j + ((t : Int) - (k : Int)) * d.2))

/-- Union of those candidate windows that are entirely contained in `s`. -/
def union_included_windows (s : Finset (Int × Int)) (ws : List (Finset (Int × Int))) :
    Finset (Int × Int) :=
  ws.foldr (fun w acc => if w ⊆ s then acc ∪ w else acc) ∅

/-- Modelled from the spec: for each of the four directions through the point, include
a run of four consecutive coordinates exactly when all four are members; union the
results across directions.  The point itself must already be a member, otherwise
nothing is included (every candidate run contains the point). -/
def BitBoard.lines_going_through_point (bb : BitBoard) (i j : Int) : BitBoard :=
  ⟨bb.center,
    union_included_windows bb.coords
      (line_dirs.flatMap (fun d => (List.range 4).map (fun k => line_window i j d k)))⟩

/-- `BOARD_SIZE` from `board.rs`. -/
def BOARD_SIZE : Int := 4

/-- Update one suit's entry of a suit-indexed bitboard family
(`bitboards[suit as usize] = ...`). -/
def update_suit (bbs : Suit → BitBoard) (s : Suit) (bb : BitBoard) : Suit → BitBoard :=
  fun t => if t = s then bb else bbs t

/-- The `Board` struct from `board.rs`: the field list, the shared bitboard center, the
derived bounding box and the four per-suit bitboards. -/
structure Board where
  fields : List (Int × Int × CompactField)
  bitboards_center : Int × Int
  bbox : BoundingBox
  bitboards : Suit → BitBoard

/-- The `Diff` struct from `board.rs`. -/
structure Diff where
  flipped : BitBoard
  won : BitBoard
  new_card : Card
  new_card_i : Int
  new_card_j : Int
  deriving DecidableEq

/-- The `CalculatedEffects` struct from `board.rs` (without the board reference, which
in this pure embedding is passed explicitly to `execute`). -/
structure CalculatedEffects where
  diff : Diff
  cards_won : CardsSet
  combo : Bool
  deriving DecidableEq

/-- `Board::get` from `board.rs`: the first field entry at the coordinate, if any. -/
def Board.get (b : Board) (i j : Int) : Option CompactField :=
  (b.fields.find? (fun f => decide (f.1 = i) && decide (f.2.1 = j))).map (fun f => f.2.2)

/-- `Board::is_in_bounds` from `board.rs`, with `checked_sub` semantics. -/
def Board.is_in_bounds (b : Board) (i j : Int) : Bool :=
  ((checkedSub i b.bbox.i_min).map (fun d => decide (d < BOARD_SIZE))).getD false &&
  ((checkedSub b.bbox.i_max i).map (fun d => decide (d < BOARD_SIZE))).getD false &&
  ((checkedSub j b.bbox.j_min).map (fun d => decide (d < BOARD_SIZE))).getD false &&
  ((checkedSub b.bbox.j_max j).map (fun d => decide (d < BOARD_SIZE))).getD false

/-- `Board::playable_area` from `board.rs`.  The source computes with `i8` arithmetic;
overflow (possible when the bounding box sits at the extreme ends of the `i8` range)
is modelled with two's-complement wrap-around. -/
def Board.playable_area (b : Board) : BoundingBox :=
  ⟨wrap8 (b.bbox.i_max - BOARD_SIZE + 1), wrap8 (b.bbox.j_max - BOARD_SIZE + 1),
    wrap8 (b.bbox.i_min + BOARD_SIZE - 1), wrap8 (b.bbox.j_min + BOARD_SIZE - 1)⟩

/-- `Board::possible_to_play_card` from `board.rs`. -/
def Board.possible_to_play_card (canPlace : Card → Card → Bool) (b : Board)
    (card : Card) : Bool :=
  if b.fields.length < 16 then true
  else b.fields.any (fun f => f.2.2.can_place_card canPlace card)

/-- `Board::locations_for_card` from `board.rs`: seed the playable rectangle, then
remove occupied coordinates whose field rejects the card. -/
def Board.locations_for_card (canPlace : Card → Card → Bool) (b : Board)
    (card : Card) : BitBoard :=
  let pa := b.playable_area
  let bitboard := (BitBoard.empty_board_centered_at b.bitboards_center).insert_area
    pa.i_min pa.j_min pa.i_max pa.j_max
  b.fields.foldl
    (fun bb f => if f.2.2.can_place_card canPlace card then bb else bb.remove f.1 f.2.1)
    bitboard

/-- `Board::combo_locations_for_card` from `board.rs`. -/
def Board.combo_locations_for_card (canPlace : Card → Card → Bool) (b : Board)
    (card : Card) : BitBoard :=
  b.fields.foldl
    (fun bb f => if f.2.2.can_place_card canPlace card then bb.insert f.1 f.2.1 else bb)
    (BitBoard.empty_board_centered_at b.bitboards_center)

/-- The coordinate ordering used by `to_fields_vec`'s `sort_by_key(|f| (f.i, f.j))`. -/
def field_le (a b : Field') : Prop := a.i < b.i ∨ (a.i = b.i ∧ a.j ≤ b.j)

instance : DecidableRel field_le := by
  unfold field_le
  infer_instance

/-- `Board::to_fields_vec` from `board.rs`: drop empty fields, convert back to
`Field`s, and sort ascending by coordinate `(i, j)`. -/
def Board.to_fields_vec (b : Board) : List Field' :=
  List.insertionSort field_le
    (b.fields.filterMap
      (fun f =>
        if f.2.2.is_empty then none
        else some ⟨f.1, f.2.1, f.2.2.top_card, f.2.2.hidden_cards⟩))

/-- The four orthogonal neighbour coordinates probed by a Jack, in source order.
The `i8` offsets wrap at the ends of the range. -/
def ortho_neighbors (i j : Int) : List (Int × Int) :=
  [(wrap8 (i - 1), j), (wrap8 (i + 1), j), (i, wrap8 (j - 1)), (i, wrap8 (j + 1))]

/-- The four diagonal neighbour coordinates probed by a Queen, in source order. -/
def diag_neighbors (i j : Int) : List (Int × Int) :=
  [(wrap8 (i - 1), wrap8 (j - 1)), (wrap8 (i - 1), wrap8 (j + 1)),
    (wrap8 (i + 1), wrap8 (j - 1)), (wrap8 (i + 1), wrap8 (j + 1))]

/-- `Board::fields_to_flip` from `board.rs`. -/
def Board.fields_to_flip (b : Board) (card_to_play : CardToPlay) :
    Except IllegalCardPlayed BitBoard :=
  let flipped0 := BitBoard.empty_board_centered_at b.bitboards_center
  match card_to_play.card.rank with
  | Rank.jack =>
    Except.ok ((ortho_neighbors card_to_play.i card_to_play.j).foldl
      (fun fl p => if b.is_in_bounds p.1 p.2 then fl.insert p.1 p.2 else fl) flipped0)
  | Rank.queen =>
    Except.ok ((diag_neighbors card_to_play.i card_to_play.j).foldl
      (fun fl p => if b.is_in_bounds p.1 p.2 then fl.insert p.1 p.2 else fl) flipped0)
  | Rank.king =>
    match card_to_play.target_field_for_king_ability with
    | none => Except.error IllegalCardPlayed.noTargetForKingAbility
    | some (tgt_i, tgt_j) =>
      match b.get tgt_i tgt_j with
      | none => Except.error (IllegalCardPlayed.targetForKingAbilityDoesNotExist tgt_i tgt_j)
      | some field =>
        if field.top_card = none ∧ (card_to_play.i, card_to_play.j) ≠ (tgt_i, tgt_j) then
          Except.error (IllegalCardPlayed.targetForKingAbilityIsFaceDown tgt_i tgt_j)
        else Except.ok (flipped0.insert tgt_i tgt_j)
  | _ => Except.ok flipped0

/-- The tail of `Board::calculate` after the bounds and compatibility checks:
ability resolution, win detection, and the won-cards fold. -/
def Board.calculate_rest (b : Board) (card_to_play : CardToPlay)
    (existing_field : Option CompactField) :
    Except IllegalCardPlayed CalculatedEffects :=
  match (if existing_field.isSome then b.fields_to_flip card_to_play
         else Except.ok (BitBoard.empty_board_centered_at b.bitboards_center)) with
  | Except.error e => Except.error e
  | Except.ok flipped =>
    let won := ((((b.bitboards card_to_play.card.suit).insert card_to_play.i
        card_to_play.j).difference flipped).lines_going_through_point card_to_play.i
        card_to_play.j).remove card_to_play.i card_to_play.j
    let cards_won := b.fields.foldl
      (fun s f => if won.contains f.1 f.2.1 then s ∪ f.2.2.all_cards else s) ∅
    Except.ok ⟨⟨flipped, won, card_to_play.card, card_to_play.i, card_to_play.j⟩,
      cards_won, existing_field.isSome⟩

/-- `Board::calculate` from `board.rs`. -/
def Board.calculate (canPlace : Card → Card → Bool) (b : Board)
    (card_to_play : CardToPlay) : Except IllegalCardPlayed CalculatedEffects :=
  if b.is_in_bounds card_to_play.i card_to_play.j then
    match (b.get card_to_play.i card_to_play.j).bind (fun f => f.top_card) with
    | some c =>
      if canPlace card_to_play.card c then
        b.calculate_rest card_to_play (b.get card_to_play.i card_to_play.j)
      else Except.error (IllegalCardPlayed.incompatibleCard c)
    | none => b.calculate_rest card_to_play (b.get card_to_play.i card_to_play.j)
  else Except.error IllegalCardPlayed.outOfBounds

/-- The loop state of `Diff::apply`. -/
structure ApplyState where
  new_fields : List (Int × Int × CompactField)
  bbox : BoundingBox
  bitboards : Suit → BitBoard
  field_for_new_card_already_exists : Bool

/-- One iteration of the field-copying loop in `Diff::apply`. -/
def Diff.apply_step (d : Diff) (st : ApplyState) (fld : Int × Int × CompactField) :
    ApplyState :=
  if d.won.contains fld.1 fld.2.1 then st
  else
    let exists1 :=
      if (fld.1, fld.2.1) = (d.new_card_i, d.new_card_j) then true
      else st.field_for_new_card_already_exists
    let field1 :=
      if (fld.1, fld.2.1) = (d.new_card_i, d.new_card_j) then fld.2.2.place_card d.new_card
      else fld.2.2
    let field2 := if d.flipped.contains fld.1 fld.2.1 then field1.turn_face_down else field1
    ⟨st.new_fields ++ [(fld.1, fld.2.1, field2)],
      st.bbox.update fld.1 fld.2.1,
      (match field2.top_card with
       | some c => update_suit st.bitboards c.suit ((st.bitboards c.suit).insert fld.1 fld.2.1)
       | none => st.bitboards),
      exists1⟩

/-- `Diff::apply` from `board.rs`: rebuild the board, recentered at the new card. -/
def Diff.apply (d : Diff) (b : Board) : Board :=
  let center := (d.new_card_i, d.new_card_j)
  let st := b.fields.foldl d.apply_step
    ⟨[], BoundingBox.singleton d.new_card_i d.new_card_j,
      fun _ => BitBoard.empty_board_centered_at center, false⟩
  if st.field_for_new_card_already_exists then
    ⟨st.new_fields, center, st.bbox, st.bitboards⟩
  else
    let new_field := CompactField.new.place_card d.new_card
    if d.flipped.contains d.new_card_i d.new_card_j then
      ⟨st.new_fields ++ [(d.new_card_i, d.new_card_j, new_field.turn_face_down)], center,
        st.bbox, st.bitboards⟩
    else
      ⟨st.new_fields ++ [(d.new_card_i, d.new_card_j, new_field)], center, st.bbox,
        update_suit st.bitboards d.new_card.suit
          ((st.bitboards d.new_card.suit).insert d.new_card_i d.new_card_j)⟩

/-- `CalculatedEffects::execute`, with the board passed explicitly. -/
def CalculatedEffects.execute (ce : CalculatedEffects) (b : Board) : Board :=
  ce.diff.apply b

/-- `Board::from_fields_list` from `board.rs`.  The source `assert!`s (always active)
are modelled by returning `none`. -/
def Board.from_fields_list (fields : List (Int × Int × CompactField)) : Option Board :=
  match fields with
  | [] => none
  | f0 :: rest =>
    let center := (f0.1, f0.2.1)
    let bbox := (f0 :: rest).foldl (fun bb f => bb.update f.1 f.2.1)
      (BoundingBox.singleton f0.1 f0.2.1)
    let bitboards := (f0 :: rest).foldl
      (fun bbs f =>
        match f.2.2.top_card with
        | some c => update_suit bbs c.suit ((bbs c.suit).insert f.1 f.2.1)
        | none => bbs)
      (fun _ => BitBoard.empty_board_centered_at center)
    if bbox.size_i ≤ BOARD_SIZE ∧ bbox.size_j ≤ BOARD_SIZE then
      some ⟨f0 :: rest, center, bbox, bitboards⟩
    else none

/-- `Board::new` from `board.rs`. -/
def Board.new (fields : List Field') : Option Board :=
  Board.from_fields_list (fields.map (fun f => (f.i, f.j, CompactField.fromField f)))

/-- `Board::play_card` from `board.rs`. -/
def Board.play_card (canPlace : Card → Card → Bool) (b : Board)
    (card_to_play : CardToPlay) : Except IllegalCardPlayed Board :=
  (b.calculate canPlace card_to_play).map (fun ce => ce.execute b)

/-- Representation well-formedness of a `Board` value, as documented in `board.rs`:
a non-empty field list with unique coordinates, no empty field, every coordinate inside
the bounding box, a consistent bounding box of span at most `BOARD_SIZE` per axis, with
all bounds inside the `i8` range. -/
def Board.Wf (b : Board) : Prop :=
  b.fields ≠ [] ∧
  (b.fields.map (fun f => (f.1, f.2.1))).Nodup ∧
  (∀ f ∈ b.fields, ¬ f.2.2.is_empty) ∧
  (∀ f ∈ b.fields,
    b.bbox.i_min ≤ f.1 ∧ f.1 ≤ b.bbox.i_max ∧ b.bbox.j_min ≤ f.2.1 ∧ f.2.1 ≤ b.bbox.j_max) ∧
  b.bbox.i_min ≤ b.bbox.i_max ∧ b.bbox.j_min ≤ b.bbox.j_max ∧
  b.bbox.i_max - b.bbox.i_min + 1 ≤ BOARD_SIZE ∧
  b.bbox.j_max - b.bbox.j_min + 1 ≤ BOARD_SIZE ∧
  -128 ≤ b.bbox.i_min ∧ b.bbox.i_max ≤ 127 ∧ -128 ≤ b.bbox.j_min ∧ b.bbox.j_max ≤ 127

instance (b : Board) : Decidable b.Wf := by
  unfold Board.Wf
  infer_instance

/-! ### Basic arithmetic and bitboard lemmas -/

theorem wrap8_eq_self (x : Int) (h1 : -128 ≤ x) (h2 : x ≤ 127) : wrap8 x = x := by
  unfold wrap8
  omega

theorem checked_lt_getD (a c : Int) :
    ((checkedSub a c).map (fun d => decide (d < BOARD_SIZE))).getD false = true ↔
      -128 ≤ a - c ∧ a - c ≤ 127 ∧ a - c < 4 := by
  unfold checkedSub BOARD_SIZE
  split
  · rename_i h
    simp only [Option.map_some', Option.getD_some, decide_eq_true_eq]
    omega
  · rename_i h
    simp only [Option.map_none', Option.getD_none, Bool.false_eq_true, false_iff]
    omega

/-- The in-bounds test, characterised by exact arithmetic: given a consistent bounding
box, `is_in_bounds` holds exactly on the rectangle that extends the box to the
four-span limit.  The `checked_sub` failure cases all fall outside that rectangle. -/
theorem is_in_bounds_iff (b : Board) (i j : Int)
    (hi : b.bbox.i_min ≤ b.bbox.i_max) (hj : b.bbox.j_min ≤ b.bbox.j_max) :
    b.is_in_bounds i j = true ↔
      b.bbox.i_max - 3 ≤ i ∧ i ≤ b.bbox.i_min + 3 ∧
      b.bbox.j_max - 3 ≤ j ∧ j ≤ b.bbox.j_min + 3 := by
  unfold Board.is_in_bounds
  rw [Bool.and_eq_true, Bool.and_eq_true, Bool.and_eq_true,
    checked_lt_getD, checked_lt_getD, checked_lt_getD, checked_lt_getD]
  constructor
  · intro h
    omega
  · intro h
    omega

theorem bitboard_contains_iff (bb : BitBoard) (i j : Int) :
    bb.contains i j = true ↔ (i, j) ∈ bb.coords := by
  simp [BitBoard.contains]

theorem bitboard_insert_coords (bb : BitBoard) (i j : Int) :
    (bb.insert i j).coords = Insert.insert (i, j) bb.coords := rfl

theorem bitboard_remove_coords (bb : BitBoard) (i j : Int) :
    (bb.remove i j).coords = bb.coords.erase (i, j) := rfl

theorem bitboard_difference_coords (a b : BitBoard) :
    (a.difference b).coords = a.coords \ b.coords := rfl

/-! ### Line-detection lemmas -/

theorem mem_union_included_windows {s : Finset (Int × Int)}
    {ws : List (Finset (Int × Int))} {p : Int × Int} :
    p ∈ union_included_windows s ws ↔ ∃ w ∈ ws, w ⊆ s ∧ p ∈ w := by
  induction ws with
  | nil => simp [union_included_windows]
  | cons w ws ih =>
    unfold union_included_windows at ih ⊢
    rw [List.foldr_cons]
    by_cases h : w ⊆ s
    · simp only [if_pos h, Finset.mem_union, ih, List.mem_cons]
      constructor
      · rintro (⟨w', hw', hsub, hp⟩ | hp)
        · exact ⟨w', Or.inr hw', hsub, hp⟩
        · exact ⟨w, Or.inl rfl, h, hp⟩
      · rintro ⟨w', (rfl | hw'), hsub, hp⟩
        · exact Or.inr hp
        · exact Or.inl ⟨w', hw', hsub, hp⟩
    · simp only [if_neg h, ih, List.mem_cons]
      constructor
      · rintro ⟨w', hw', hsub, hp⟩
        exact ⟨w', Or.inr hw', hsub, hp⟩
      · rintro ⟨w', (rfl | hw'), hsub, hp⟩
        · exact absurd hsub h
        · exact ⟨w', hw', hsub, hp⟩

theorem point_mem_line_window (i j : Int) (d : Int × Int) (k : Nat) (hk : k < 4) :
    (i, j) ∈ line_window i j d k := by
  unfold line_window
  refine Finset.mem_image.2 ⟨k, ?_, ?_⟩
  · simpa using hk
  · simp

theorem lines_coords_subset (bb : BitBoard) (i j : Int) :
    (bb.lines_going_through_point i j).coords ⊆ bb.coords := by
  intro p hp
  unfold BitBoard.lines_going_through_point at hp
  obtain ⟨w, _, hsub, hpw⟩ := mem_union_included_windows.1 hp
  exact hsub hpw

theorem lines_coords_empty (bb : BitBoard) (i j : Int) (h : (i, j) ∉ bb.coords) :
    (bb.lines_going_through_point i j).coords = ∅ := by
  rw [Finset.eq_empty_iff_forall_not_mem]
  intro p hp
  unfold BitBoard.lines_going_through_point at hp
  obtain ⟨w, hw, hsub, _⟩ := mem_union_included_windows.1 hp
  simp only [List.mem_flatMap, List.mem_map, List.mem_range] at hw
  obtain ⟨d, _, k, hk, rfl⟩ := hw
  exact h (hsub (point_mem_line_window i j d k hk))

/-! ### Lookup lemmas -/

theorem find_coord_eq_none_iff (l : List (Int × Int × CompactField)) (i j : Int) :
    l.find? (fun f => decide (f.1 = i) && decide (f.2.1 = j)) = none ↔
      (i, j) ∉ l.map (fun f => (f.1, f.2.1)) := by
  rw [List.find?_eq_none]
  constructor
  · intro h hmem
    obtain ⟨f, hf, hco⟩ := List.mem_map.1 hmem
    apply absurd (h f hf)
    simp only [Bool.and_eq_true, decide_eq_true_eq, not_not]
    injection hco with h1 h2
    exact ⟨h1, h2⟩
  · intro h f hf hpred
    simp only [Bool.and_eq_true, decide_eq_true_eq] at hpred
    exact h (List.mem_map.2 ⟨f, hf, by rw [hpred.1, hpred.2]⟩)

theorem get_eq_none_iff (b : Board) (i j : Int) :
    b.get i j = none ↔ (i, j) ∉ b.fields.map (fun f => (f.1, f.2.1)) := by
  unfold Board.get
  rw [Option.map_eq_none', find_coord_eq_none_iff]

theorem find_coord_eq_some_iff (l : List (Int × Int × CompactField))
    (hnd : (l.map (fun f => (f.1, f.2.1))).Nodup) (i j : Int) (cf : CompactField) :
    (l.find? (fun f => decide (f.1 = i) && decide (f.2.1 = j))).map (fun f => f.2.2) =
        some cf ↔
      (i, j, cf) ∈ l := by
  induction l with
  | nil => simp
  | cons a l ih =>
    obtain ⟨a1, a2, a3⟩ := a
    simp only [List.map_cons, List.nodup_cons] at hnd
    by_cases ha : a1 = i ∧ a2 = j
    · obtain ⟨rfl, rfl⟩ := ha
      rw [List.find?_cons_of_pos]
      · simp only [Option.map_some', Option.some.injEq, List.mem_cons]
        constructor
        · rintro rfl
          exact Or.inl rfl
        · rintro (h | hmem)
          · injection h with h1 h2
            injection h2 with h2 h3
            exact h3.symm
          · exact absurd
              (List.mem_map.2 ⟨(a1, a2, cf), hmem, rfl⟩ :
                (a1, a2) ∈ l.map (fun f => (f.1, f.2.1)))
              hnd.1
      · simp
    · rw [List.find?_cons_of_neg]
      · rw [ih hnd.2, List.mem_cons, or_iff_right]
        intro h
        injection h with h1 h2
        injection h2 with h2 h3
        exact ha ⟨h1.symm, h2.symm⟩
      · simp only [Bool.and_eq_true, decide_eq_true_eq]
        exact fun h => ha h

theorem get_eq_some_iff (b : Board)
    (hnd : (b.fields.map (fun f => (f.1, f.2.1))).Nodup) (i j : Int) (cf : CompactField) :
    b.get i j = some cf ↔ (i, j, cf) ∈ b.fields := by
  unfold Board.get
  exact find_coord_eq_some_iff b.fields hnd i j cf

/-! ### Fold lemmas -/

theorem mem_foldl_union_filter (l : List (Int × Int × CompactField)) (won : BitBoard)
    (c : Card) (init : Finset Card) :
    c ∈ l.foldl (fun s f => if won.contains f.1 f.2.1 then s ∪ f.2.2.all_cards else s)
        init ↔
      c ∈ init ∨ ∃ f ∈ l, won.contains f.1 f.2.1 = true ∧ c ∈ f.2.2.all_cards := by
  induction l generalizing init with
  | nil => simp
  | cons a l ih =>
    rw [List.foldl_cons]
    by_cases h : won.contains a.1 a.2.1 = true
    · rw [if_pos h, ih]
      simp only [Finset.mem_union, List.mem_cons]
      constructor
      · rintro ((hc | hc) | ⟨f, hf, hw, hc⟩)
        · exact Or.inl hc
        · exact Or.inr ⟨a, Or.inl rfl, h, hc⟩
        · exact Or.inr ⟨f, Or.inr hf, hw, hc⟩
      · rintro (hc | ⟨f, (rfl | hf), hw, hc⟩)
        · exact Or.inl (Or.inl hc)
        · exact Or.inl (Or.inr hc)
        · exact Or.inr ⟨f, hf, hw, hc⟩
    · rw [if_neg h, ih]
      simp only [List.mem_cons]
      constructor
      · rintro (hc | ⟨f, hf, hw, hc⟩)
        · exact Or.inl hc
        · exact Or.inr ⟨f, Or.inr hf, hw, hc⟩
      · rintro (hc | ⟨f, (rfl | hf), hw, hc⟩)
        · exact Or.inl hc
        · exact absurd hw h
        · exact Or.inr ⟨f, hf, hw, hc⟩

theorem mem_foldl_remove (l : List (Int × Int × CompactField)) (P : CompactField → Bool)
    (bb : BitBoard) (p : Int × Int) :
    p ∈ (l.foldl (fun acc f => if P f.2.2 then acc else acc.remove f.1 f.2.1) bb).coords ↔
      p ∈ bb.coords ∧ ∀ f ∈ l, P f.2.2 = false → (f.1, f.2.1) ≠ p := by
  induction l generalizing bb with
  | nil => simp
  | cons a l ih =>
    rw [List.foldl_cons]
    by_cases h : P a.2.2 = true
    · rw [if_pos h, ih]
      simp only [List.mem_cons]
      constructor
      · rintro ⟨hp, hall⟩
        exact ⟨hp, by
          rintro f (rfl | hf) hP
          · rw [hP] at h
            exact absurd h (by simp)
          · exact hall f hf hP⟩
      · rintro ⟨hp, hall⟩
        exact ⟨hp, fun f hf hP => hall f (Or.inr hf) hP⟩
    · rw [if_neg h, ih]
      simp only [bitboard_remove_coords, Finset.mem_erase, List.mem_cons]
      constructor
      · rintro ⟨⟨hne, hp⟩, hall⟩
        refine ⟨hp, ?_⟩
        rintro f (rfl | hf) hP
        · exact fun hco => hne hco.symm
        · exact hall f hf hP
      · rintro ⟨hp, hall⟩
        refine ⟨⟨?_, hp⟩, fun f hf hP => hall f (Or.inr hf) hP⟩
        intro hco
        exact hall a (Or.inl rfl) (by simpa using h) hco.symm

theorem mem_foldl_insert_inbounds (l : List (Int × Int)) (Q : Int → Int → Bool)
    (bb : BitBoard) (p : Int × Int) :
    p ∈ (l.foldl (fun fl q => if Q q.1 q.2 then fl.insert q.1 q.2 else fl) bb).coords ↔
      p ∈ bb.coords ∨ (p ∈ l ∧ Q p.1 p.2 = true) := by
  induction l generalizing bb with
  | nil => simp
  | cons a l ih =>
    rw [List.foldl_cons]
    by_cases h : Q a.1 a.2 = true
    · rw [if_pos h, ih]
      simp only [bitboard_insert_coords, Finset.mem_insert, List.mem_cons]
      constructor
      · rintro ((rfl | hp) | ⟨hl, hq⟩)
        · exact Or.inr ⟨Or.inl (by simp), by simpa using h⟩
        · exact Or.inl hp
        · exact Or.inr ⟨Or.inr hl, hq⟩
      · rintro (hp | ⟨(rfl | hl), hq⟩)
        · exact Or.inl (Or.inr hp)
        · exact Or.inl (Or.inl (by simp))
        · exact Or.inr ⟨hl, hq⟩
    · rw [if_neg h, ih]
      simp only [List.mem_cons]
      constructor
      · rintro (hp | ⟨hl, hq⟩)
        · exact Or.inl hp
        · exact Or.inr ⟨Or.inr hl, hq⟩
      · rintro (hp | ⟨(rfl | hl), hq⟩)
        · exact Or.inl hp
        · exact absurd hq h
        · exact Or.inr ⟨hl, hq⟩

/-! ### Flip-set characterisation -/

theorem foldl_insert_inbounds_coords (b : Board) (l : List (Int × Int)) :
    ((l.foldl (fun fl p => if b.is_in_bounds p.1 p.2 then fl.insert p.1 p.2 else fl)
        (BitBoard.empty_board_centered_at b.bitboards_center)).coords)
      = (l.filter (fun p => b.is_in_bounds p.1 p.2)).toFinset := by
  ext p
  rw [mem_foldl_insert_inbounds]
  simp only [BitBoard.empty_board_centered_at, Finset.not_mem_empty, false_or,
    List.mem_toFinset, List.mem_filter]

theorem fields_to_flip_jack (b : Board) (ctp : CardToPlay)
    (h : ctp.card.rank = Rank.jack) :
    ∃ fl, b.fields_to_flip ctp = Except.ok fl ∧
      fl.coords = ((ortho_neighbors ctp.i ctp.j).filter
        (fun p => b.is_in_bounds p.1 p.2)).toFinset := by
  unfold Board.fields_to_flip
  rw [h]
  exact ⟨_, rfl, foldl_insert_inbounds_coords b _⟩

theorem fields_to_flip_queen (b : Board) (ctp : CardToPlay)
    (h : ctp.card.rank = Rank.queen) :
    ∃ fl, b.fields_to_flip ctp = Except.ok fl ∧
      fl.coords = ((diag_neighbors ctp.i ctp.j).filter
        (fun p => b.is_in_bounds p.1 p.2)).toFinset := by
  unfold Board.fields_to_flip
  rw [h]
  exact ⟨_, rfl, foldl_insert_inbounds_coords b _⟩

theorem fields_to_flip_king_ok (b : Board) (ctp : CardToPlay) (tgt_i tgt_j : Int)
    (field : CompactField) (h : ctp.card.rank = Rank.king)
    (ht : ctp.target_field_for_king_ability = some (tgt_i, tgt_j))
    (hg : b.get tgt_i tgt_j = some field)
    (hcond : ¬(field.top_card = none ∧ (ctp.i, ctp.j) ≠ (tgt_i, tgt_j))) :
    ∃ fl, b.fields_to_flip ctp = Except.ok fl ∧ fl.coords = {(tgt_i, tgt_j)} := by
  simp only [Board.fields_to_flip, h, ht, hg]
  rw [if_neg hcond]
  exact ⟨_, rfl, rfl⟩

theorem fields_to_flip_other (b : Board) (ctp : CardToPlay)
    (h1 : ctp.card.rank ≠ Rank.jack) (h2 : ctp.card.rank ≠ Rank.queen)
    (h3 : ctp.card.rank ≠ Rank.king) :
    b.fields_to_flip ctp =
      Except.ok (BitBoard.empty_board_centered_at b.bitboards_center) := by
  cases hr : ctp.card.rank <;> first
    | exact absurd hr h1
    | exact absurd hr h2
    | exact absurd hr h3
    | simp only [Board.fields_to_flip, hr]

theorem fields_to_flip_error_inv (b : Board) (ctp : CardToPlay) (e : IllegalCardPlayed)
    (h : b.fields_to_flip ctp = Except.error e) :
    ctp.card.rank = Rank.king ∧
      ((e = IllegalCardPlayed.noTargetForKingAbility ∧
          ctp.target_field_for_king_ability = none) ∨
       (∃ ti tj, e = IllegalCardPlayed.targetForKingAbilityDoesNotExist ti tj ∧
          ctp.target_field_for_king_ability = some (ti, tj) ∧ b.get ti tj = none) ∨
       (∃ ti tj f, e = IllegalCardPlayed.targetForKingAbilityIsFaceDown ti tj ∧
          ctp.target_field_for_king_ability = some (ti, tj) ∧ b.get ti tj = some f ∧
          f.top_card = none ∧ (ctp.i, ctp.j) ≠ (ti, tj))) := by
  cases hr : ctp.card.rank
  case king =>
    refine ⟨rfl, ?_⟩
    cases ht : ctp.target_field_for_king_ability with
    | none =>
      simp only [Board.fields_to_flip, hr, ht] at h
      injection h with h
      exact Or.inl ⟨h.symm, rfl⟩
    | some tgt =>
      obtain ⟨ti, tj⟩ := tgt
      cases hg : b.get ti tj with
      | none =>
        simp only [Board.fields_to_flip, hr, ht, hg] at h
        injection h with h
        exact Or.inr (Or.inl ⟨ti, tj, h.symm, rfl, hg⟩)
      | some field =>
        simp only [Board.fields_to_flip, hr, ht, hg] at h
        by_cases hc : field.top_card = none ∧ (ctp.i, ctp.j) ≠ (ti, tj)
        · rw [if_pos hc] at h
          injection h with h
          exact Or.inr (Or.inr ⟨ti, tj, field, h.symm, rfl, hg, hc.1, hc.2⟩)
        · rw [if_neg hc] at h
          exact absurd h (by simp)
  all_goals simp [Board.fields_to_flip, hr] at h

/-! ### Inversion lemmas for `calculate` -/

theorem calculate_rest_ok_inv (b : Board) (ctp : CardToPlay) (ef : Option CompactField)
    (ce : CalculatedEffects) (h : b.calculate_rest ctp ef = Except.ok ce) :
    ce.combo = ef.isSome ∧
    (ef.isSome = true → b.fields_to_flip ctp = Except.ok ce.diff.flipped) ∧
    (ef.isSome = false →
      ce.diff.flipped = BitBoard.empty_board_centered_at b.bitboards_center) ∧
    ce.diff.won = ((((b.bitboards ctp.card.suit).insert ctp.i ctp.j).difference
      ce.diff.flipped).lines_going_through_point ctp.i ctp.j).remove ctp.i ctp.j ∧
    ce.diff.new_card = ctp.card ∧ ce.diff.new_card_i = ctp.i ∧
    ce.diff.new_card_j = ctp.j ∧
    ce.cards_won = b.fields.foldl
      (fun s f => if ce.diff.won.contains f.1 f.2.1 then s ∪ f.2.2.all_cards else s) ∅ := by
  cases hef : ef.isSome with
  | false =>
    rw [Board.calculate_rest, hef] at h
    simp only [Bool.false_eq_true, if_false] at h
    injection h with h
    subst h
    exact ⟨rfl, fun hh => absurd hh (by simp), fun _ => rfl, rfl, rfl, rfl, rfl, rfl⟩
  | true =>
    cases hf : b.fields_to_flip ctp with
    | error e =>
      rw [Board.calculate_rest, hef] at h
      simp only [if_true, hf] at h
      exact absurd h (by simp)
    | ok fl =>
      rw [Board.calculate_rest, hef] at h
      simp only [if_true, hf] at h
      injection h with h
      subst h
      exact ⟨rfl, fun _ => rfl, fun hh => absurd hh (by simp), rfl, rfl, rfl, rfl, rfl⟩

theorem calculate_rest_error_inv (b : Board) (ctp : CardToPlay)
    (ef : Option CompactField) (e : IllegalCardPlayed)
    (h : b.calculate_rest ctp ef = Except.error e) :
    ef.isSome = true ∧ b.fields_to_flip ctp = Except.error e := by
  cases hef : ef.isSome with
  | false =>
    rw [Board.calculate_rest, hef] at h
    simp only [Bool.false_eq_true, if_false] at h
    exact absurd h (by simp)
  | true =>
    cases hf : b.fields_to_flip ctp with
    | error e' =>
      rw [Board.calculate_rest, hef] at h
      simp only [if_true, hf] at h
      injection h with h
      subst h
      exact ⟨rfl, rfl⟩
    | ok fl =>
      rw [Board.calculate_rest, hef] at h
      simp only [if_true, hf] at h
      exact absurd h (by simp)

theorem calculate_ok_inv (canPlace : Card → Card → Bool) (b : Board) (ctp : CardToPlay)
    (ce : CalculatedEffects) (h : b.calculate canPlace ctp = Except.ok ce) :
    b.is_in_bounds ctp.i ctp.j = true ∧
    (∀ f c, b.get ctp.i ctp.j = some f → f.top_card = some c →
      canPlace ctp.card c = true) ∧
    ce.combo = (b.get ctp.i ctp.j).isSome ∧
    ((b.get ctp.i ctp.j).isSome = true →
      b.fields_to_flip ctp = Except.ok ce.diff.flipped) ∧
    (b.get ctp.i ctp.j = none →
      ce.diff.flipped = BitBoard.empty_board_centered_at b.bitboards_center) ∧
    ce.diff.won = ((((b.bitboards ctp.card.suit).insert ctp.i ctp.j).difference
      ce.diff.flipped).lines_going_through_point ctp.i ctp.j).remove ctp.i ctp.j ∧
    ce.diff.new_card = ctp.card ∧ ce.diff.new_card_i = ctp.i ∧
    ce.diff.new_card_j = ctp.j ∧
    ce.cards_won = b.fields.foldl
      (fun s f => if ce.diff.won.contains f.1 f.2.1 then s ∪ f.2.2.all_cards else s) ∅ := by
  unfold Board.calculate at h
  by_cases hb : b.is_in_bounds ctp.i ctp.j = true
  · rw [if_pos hb] at h
    refine ⟨hb, ?_⟩
    cases hg : b.get ctp.i ctp.j with
    | none =>
      rw [hg] at h
      have h' : b.calculate_rest ctp none = Except.ok ce := h
      obtain ⟨h1, _, h3, h4, h5, h6, h7, h8⟩ := calculate_rest_ok_inv b ctp none ce h'
      exact ⟨fun f c hf => absurd hf (by simp), h1, fun hh => absurd hh (by simp),
        fun _ => h3 rfl, h4, h5, h6, h7, h8⟩
    | some f0 =>
      rw [hg] at h
      simp only [Option.some_bind] at h
      cases ht : f0.top_card with
      | none =>
        rw [ht] at h
        have h' : b.calculate_rest ctp (some f0) = Except.ok ce := h
        obtain ⟨h1, h2, _, h4, h5, h6, h7, h8⟩ :=
          calculate_rest_ok_inv b ctp (some f0) ce h'
        refine ⟨?_, h1, h2, fun hh => absurd hh (by simp), h4, h5, h6, h7, h8⟩
        intro f c hf hc
        injection hf with hf
        subst hf
        rw [ht] at hc
        exact absurd hc (by simp)
      | some c0 =>
        rw [ht] at h
        by_cases hcp : canPlace ctp.card c0 = true
        · have h'' : (if canPlace ctp.card c0 = true then b.calculate_rest ctp (some f0)
              else Except.error (IllegalCardPlayed.incompatibleCard c0)) =
                Except.ok ce := h
          rw [if_pos hcp] at h''
          obtain ⟨h1, h2, _, h4, h5, h6, h7, h8⟩ :=
            calculate_rest_ok_inv b ctp (some f0) ce h''
          refine ⟨?_, h1, h2, fun hh => absurd hh (by simp), h4, h5, h6, h7, h8⟩
          intro f c hf hc
          injection hf with hf
          subst hf
          rw [ht] at hc
          injection hc with hc
          subst hc
          exact hcp
        · have h'' : (if canPlace ctp.card c0 = true then b.calculate_rest ctp (some f0)
              else Except.error (IllegalCardPlayed.incompatibleCard c0)) =
                Except.ok ce := h
          rw [if_neg hcp] at h''
          exact absurd h'' (by simp)
  · rw [if_neg hb] at h
    exact absurd h (by simp)

theorem calculate_error_inv (canPlace : Card → Card → Bool) (b : Board)
    (ctp : CardToPlay) (e : IllegalCardPlayed)
    (h : b.calculate canPlace ctp = Except.error e) :
    (e = IllegalCardPlayed.outOfBounds ∧ b.is_in_bounds ctp.i ctp.j = false) ∨
    (∃ f c, e = IllegalCardPlayed.incompatibleCard c ∧
      b.is_in_bounds ctp.i ctp.j = true ∧ b.get ctp.i ctp.j = some f ∧
      f.top_card = some c ∧ canPlace ctp.card c = false) ∨
    (b.is_in_bounds ctp.i ctp.j = true ∧ (b.get ctp.i ctp.j).isSome = true ∧
      ctp.card.rank = Rank.king ∧
      ((e = IllegalCardPlayed.noTargetForKingAbility ∧
          ctp.target_field_for_king_ability = none) ∨
       (∃ ti tj, e = IllegalCardPlayed.targetForKingAbilityDoesNotExist ti tj ∧
          ctp.target_field_for_king_ability = some (ti, tj) ∧ b.get ti tj = none) ∨
       (∃ ti tj f, e = IllegalCardPlayed.targetForKingAbilityIsFaceDown ti tj ∧
          ctp.target_field_for_king_ability = some (ti, tj) ∧ b.get ti tj = some f ∧
          f.top_card = none ∧ (ctp.i, ctp.j) ≠ (ti, tj)))) := by
  unfold Board.calculate at h
  by_cases hb : b.is_in_bounds ctp.i ctp.j = true
  · rw [if_pos hb] at h
    cases hg : b.get ctp.i ctp.j with
    | none =>
      rw [hg] at h
      have h' : b.calculate_rest ctp none = Except.error e := h
      obtain ⟨h1, _⟩ := calculate_rest_error_inv b ctp none e h'
      exact absurd h1 (by simp)
    | some f0 =>
      rw [hg] at h
      simp only [Option.some_bind] at h
      cases ht : f0.top_card with
      | none =>
        rw [ht] at h
        have h' : b.calculate_rest ctp (some f0) = Except.error e := h
        obtain ⟨_, h2⟩ := calculate_rest_error_inv b ctp (some f0) e h'
        obtain ⟨hk, hrest⟩ := fields_to_flip_error_inv b ctp e h2
        exact Or.inr (Or.inr ⟨hb, rfl, hk, hrest⟩)
      | some c0 =>
        rw [ht] at h
        by_cases hcp : canPlace ctp.card c0 = true
        · have h'' : (if canPlace ctp.card c0 = true then b.calculate_rest ctp (some f0)
              else Except.error (IllegalCardPlayed.incompatibleCard c0)) =
                Except.error e := h
          rw [if_pos hcp] at h''
          obtain ⟨_, h2⟩ := calculate_rest_error_inv b ctp (some f0) e h''
          obtain ⟨hk, hrest⟩ := fields_to_flip_error_inv b ctp e h2
          exact Or.inr (Or.inr ⟨hb, rfl, hk, hrest⟩)
        · have h'' : (if canPlace ctp.card c0 = true then b.calculate_rest ctp (some f0)
              else Except.error (IllegalCardPlayed.incompatibleCard c0)) =
                Except.error e := h
          rw [if_neg hcp] at h''
          injection h'' with h''
          exact Or.inr (Or.inl ⟨f0, c0, h''.symm, hb, rfl, ht, by simpa using hcp⟩)
  · rw [if_neg hb] at h
    injection h with h
    exact Or.inl ⟨h.symm, by simpa using hb⟩

/-! ### The `Diff.apply` loop, characterised -/

/-- Apply `turn_face_down` when the flag is set. -/
def flip_if (c : Bool) (f : CompactField) : CompactField := if c then f.turn_face_down else f

/-- What one existing field becomes under a diff: dropped when won, otherwise the play
coordinate receives the new card and flipped coordinates are turned face-down. -/
def survivor (d : Diff) (fld : Int × Int × CompactField) :
    Option (Int × Int × CompactField) :=
  if d.won.contains fld.1 fld.2.1 then none
  else some (fld.1, fld.2.1,
    flip_if (d.flipped.contains fld.1 fld.2.1)
      (if (fld.1, fld.2.1) = (d.new_card_i, d.new_card_j) then fld.2.2.place_card d.new_card
       else fld.2.2))

theorem apply_step_eq (d : Diff) (st : ApplyState) (fld : Int × Int × CompactField) :
    d.apply_step st fld =
      match survivor d fld with
      | none => st
      | some entry =>
        ⟨st.new_fields ++ [entry], st.bbox.update fld.1 fld.2.1,
          (match entry.2.2.top_card with
           | some c =>
             update_suit st.bitboards c.suit ((st.bitboards c.suit).insert fld.1 fld.2.1)
           | none => st.bitboards),
          if (fld.1, fld.2.1) = (d.new_card_i, d.new_card_j) then true
          else st.field_for_new_card_already_exists⟩ := by
  unfold Diff.apply_step survivor flip_if
  by_cases hw : d.won.contains fld.1 fld.2.1 = true
  · rw [if_pos hw, if_pos hw]
  · rw [if_neg hw, if_neg hw]

theorem apply_foldl_new_fields (d : Diff) (l : List (Int × Int × CompactField))
    (st : ApplyState) :
    (l.foldl d.apply_step st).new_fields = st.new_fields ++ l.filterMap (survivor d) := by
  induction l generalizing st with
  | nil => simp
  | cons a l ih =>
    rw [List.foldl_cons, apply_step_eq]
    cases hs : survivor d a with
    | none => simp only [List.filterMap_cons, hs, ih]
    | some entry =>
      simp only [List.filterMap_cons, hs, ih]
      simp [List.append_assoc]

theorem apply_foldl_flag (d : Diff) (l : List (Int × Int × CompactField))
    (st : ApplyState) :
    (l.foldl d.apply_step st).field_for_new_card_already_exists = true ↔
      (st.field_for_new_card_already_exists = true ∨
        ∃ f ∈ l, d.won.contains f.1 f.2.1 = false ∧
          (f.1, f.2.1) = (d.new_card_i, d.new_card_j)) := by
  induction l generalizing st with
  | nil => simp
  | cons a l ih =>
    rw [List.foldl_cons, apply_step_eq]
    cases hs : survivor d a with
    | none =>
      have hw : d.won.contains a.1 a.2.1 = true := by
        by_contra hc
        unfold survivor at hs
        rw [if_neg hc] at hs
        exact absurd hs (by simp)
      rw [ih]
      simp only [List.mem_cons]
      constructor
      · rintro (hst | ⟨f, hf, hnw, hco⟩)
        · exact Or.inl hst
        · exact Or.inr ⟨f, Or.inr hf, hnw, hco⟩
      · rintro (hst | ⟨f, (rfl | hf), hnw, hco⟩)
        · exact Or.inl hst
        · rw [hw] at hnw
          exact absurd hnw (by simp)
        · exact Or.inr ⟨f, hf, hnw, hco⟩
    | some entry =>
      have hw : d.won.contains a.1 a.2.1 = false := by
        by_contra hc
        unfold survivor at hs
        rw [if_pos (by simpa using hc)] at hs
        exact absurd hs (by simp)
      rw [ih]
      simp only [List.mem_cons]
      by_cases hco : (a.1, a.2.1) = (d.new_card_i, d.new_card_j)
      · rw [if_pos hco]
        simp only [true_or, true_iff]
        exact Or.inr ⟨a, Or.inl rfl, hw, hco⟩
      · rw [if_neg hco]
        constructor
        · rintro (hst | ⟨f, hf, hnw, hc⟩)
          · exact Or.inl hst
          · exact Or.inr ⟨f, Or.inr hf, hnw, hc⟩
        · rintro (hst | ⟨f, (rfl | hf), hnw, hc⟩)
          · exact Or.inl hst
          · exact absurd hc hco
          · exact Or.inr ⟨f, hf, hnw, hc⟩

theorem apply_foldl_bbox (d : Diff) (l : List (Int × Int × CompactField))
    (st : ApplyState) :
    (l.foldl d.apply_step st).bbox =
      (l.filter (fun f => !(d.won.contains f.1 f.2.1))).foldl
        (fun bb f => bb.update f.1 f.2.1) st.bbox := by
  induction l generalizing st with
  | nil => simp
  | cons a l ih =>
    rw [List.foldl_cons, apply_step_eq]
    cases hs : survivor d a with
    | none =>
      have hw : d.won.contains a.1 a.2.1 = true := by
        by_contra hc
        unfold survivor at hs
        rw [if_neg hc] at hs
        exact absurd hs (by simp)
      rw [ih]
      simp [List.filter_cons, hw]
    | some entry =>
      have hw : d.won.contains a.1 a.2.1 = false := by
        by_contra hc
        unfold survivor at hs
        rw [if_pos (by simpa using hc)] at hs
        exact absurd hs (by simp)
      rw [ih]
      simp [List.filter_cons, hw]

theorem update_suit_apply (bbs : Suit → BitBoard) (s : Suit) (bb : BitBoard) (t : Suit) :
    update_suit bbs s bb t = if t = s then bb else bbs t := rfl

theorem survivor_some_inv (d : Diff) (fld entry : Int × Int × CompactField)
    (h : survivor d fld = some entry) :
    d.won.contains fld.1 fld.2.1 = false ∧ entry.1 = fld.1 ∧ entry.2.1 = fld.2.1 ∧
    entry.2.2 = flip_if (d.flipped.contains fld.1 fld.2.1)
      (if (fld.1, fld.2.1) = (d.new_card_i, d.new_card_j) then fld.2.2.place_card d.new_card
       else fld.2.2) := by
  unfold survivor at h
  by_cases hw : d.won.contains fld.1 fld.2.1 = true
  · rw [if_pos hw] at h
    exact absurd h (by simp)
  · rw [if_neg hw] at h
    injection h with h
    subst h
    exact ⟨by simpa using hw, rfl, rfl, rfl⟩

theorem survivor_none_inv (d : Diff) (fld : Int × Int × CompactField)
    (h : survivor d fld = none) : d.won.contains fld.1 fld.2.1 = true := by
  by_contra hc
  unfold survivor at h
  rw [if_neg hc] at h
  exact absurd h (by simp)

theorem apply_foldl_bitboards (d : Diff) (l : List (Int × Int × CompactField))
    (st : ApplyState) (s : Suit) (p : Int × Int) :
    p ∈ ((l.foldl d.apply_step st).bitboards s).coords ↔
      p ∈ (st.bitboards s).coords ∨
        ∃ e ∈ l.filterMap (survivor d), (e.1, e.2.1) = p ∧
          ∃ c, e.2.2.top_card = some c ∧ c.suit = s := by
  induction l generalizing st with
  | nil => simp
  | cons a l ih =>
    rw [List.foldl_cons, apply_step_eq]
    cases hs : survivor d a with
    | none =>
      rw [ih]
      simp only [List.filterMap_cons, hs]
    | some entry =>
      obtain ⟨hw, he1, he2, he3⟩ := survivor_some_inv d a entry hs
      cases htc : entry.2.2.top_card with
      | none =>
        rw [ih]
        simp only [List.filterMap_cons, hs, htc, List.mem_cons]
        constructor
        · rintro (hp | ⟨e, he, hco, c, hc, hsu⟩)
          · exact Or.inl hp
          · exact Or.inr ⟨e, Or.inr he, hco, c, hc, hsu⟩
        · rintro (hp | ⟨e, (rfl | he), hco, c, hc, hsu⟩)
          · exact Or.inl hp
          · rw [htc] at hc
            exact absurd hc (by simp)
          · exact Or.inr ⟨e, he, hco, c, hc, hsu⟩
      | some c0 =>
        rw [ih]
        simp only [List.filterMap_cons, hs, List.mem_cons, htc, update_suit_apply]
        by_cases hsu : s = c0.suit
        · subst hsu
          rw [if_pos rfl]
          simp only [bitboard_insert_coords, Finset.mem_insert]
          constructor
          · rintro ((rfl | hp) | ⟨e, he, hco, c, hc, hsu'⟩)
            · exact Or.inr ⟨entry, Or.inl rfl, by rw [he1, he2], c0, htc, rfl⟩
            · exact Or.inl hp
            · exact Or.inr ⟨e, Or.inr he, hco, c, hc, hsu'⟩
          · rintro (hp | ⟨e, (rfl | he), hco, c, hc, hsu'⟩)
            · exact Or.inl (Or.inr hp)
            · left
              left
              rw [htc] at hc
              injection hc with hc
              subst hc
              rw [← hco, he1, he2]
            · exact Or.inr ⟨e, he, hco, c, hc, hsu'⟩
        · rw [if_neg hsu]
          constructor
          · rintro (hp | ⟨e, he, hco, c, hc, hsu'⟩)
            · exact Or.inl hp
            · exact Or.inr ⟨e, Or.inr he, hco, c, hc, hsu'⟩
          · rintro (hp | ⟨e, (rfl | he), hco, c, hc, hsu'⟩)
            · exact Or.inl hp
            · rw [htc] at hc
              injection hc with hc
              subst hc
              exact absurd hsu'.symm hsu
            · exact Or.inr ⟨e, he, hco, c, hc, hsu'⟩

theorem foldl_update_i_bounds (l : List (Int × Int × CompactField)) (bb : BoundingBox) :
    ((l.foldl (fun acc f => acc.update f.1 f.2.1) bb).i_min = bb.i_min ∨
      ∃ f ∈ l, (l.foldl (fun acc f => acc.update f.1 f.2.1) bb).i_min = f.1) ∧
    (l.foldl (fun acc f => acc.update f.1 f.2.1) bb).i_min ≤ bb.i_min ∧
    (∀ f ∈ l, (l.foldl (fun acc f => acc.update f.1 f.2.1) bb).i_min ≤ f.1) ∧
    ((l.foldl (fun acc f => acc.update f.1 f.2.1) bb).i_max = bb.i_max ∨
      ∃ f ∈ l, (l.foldl (fun acc f => acc.update f.1 f.2.1) bb).i_max = f.1) ∧
    bb.i_max ≤ (l.foldl (fun acc f => acc.update f.1 f.2.1) bb).i_max ∧
    (∀ f ∈ l, f.1 ≤ (l.foldl (fun acc f => acc.update f.1 f.2.1) bb).i_max) := by
  induction l generalizing bb with
  | nil => simp
  | cons a l ih =>
    rw [List.foldl_cons]
    obtain ⟨h1, h2, h3, h4, h5, h6⟩ := ih (bb.update a.1 a.2.1)
    simp only [BoundingBox.update] at h1 h2 h3 h4 h5 h6 ⊢
    refine ⟨?_, h2.trans inf_le_left, ?_, ?_, le_sup_left.trans h5, ?_⟩
    · rcases h1 with h1 | ⟨f, hf, hf1⟩
      · rcases le_total bb.i_min a.1 with hc | hc
        · exact Or.inl (by rw [h1, inf_eq_left.2 hc])
        · exact Or.inr ⟨a, List.mem_cons_self a l, by rw [h1, inf_eq_right.2 hc]⟩
      · exact Or.inr ⟨f, List.mem_cons_of_mem a hf, hf1⟩
    · intro f hf
      rcases List.mem_cons.1 hf with rfl | hf
      · exact h2.trans inf_le_right
      · exact h3 f hf
    · rcases h4 with h4 | ⟨f, hf, hf1⟩
      · rcases le_total a.1 bb.i_max with hc | hc
        · exact Or.inl (by rw [h4, sup_eq_left.2 hc])
        · exact Or.inr ⟨a, List.mem_cons_self a l, by rw [h4, sup_eq_right.2 hc]⟩
      · exact Or.inr ⟨f, List.mem_cons_of_mem a hf, hf1⟩
    · intro f hf
      rcases List.mem_cons.1 hf with rfl | hf
      · exact le_sup_right.trans h5
      · exact h6 f hf

theorem foldl_update_j_bounds (l : List (Int × Int × CompactField)) (bb : BoundingBox) :
    ((l.foldl (fun acc f => acc.update f.1 f.2.1) bb).j_min = bb.j_min ∨
      ∃ f ∈ l, (l.foldl (fun acc f => acc.update f.1 f.2.1) bb).j_min = f.2.1) ∧
    (l.foldl (fun acc f => acc.update f.1 f.2.1) bb).j_min ≤ bb.j_min ∧
    (∀ f ∈ l, (l.foldl (fun acc f => acc.update f.1 f.2.1) bb).j_min ≤ f.2.1) ∧
    ((l.foldl (fun acc f => acc.update f.1 f.2.1) bb).j_max = bb.j_max ∨
      ∃ f ∈ l, (l.foldl (fun acc f => acc.update f.1 f.2.1) bb).j_max = f.2.1) ∧
    bb.j_max ≤ (l.foldl (fun acc f => acc.update f.1 f.2.1) bb).j_max ∧
    (∀ f ∈ l, f.2.1 ≤ (l.foldl (fun acc f => acc.update f.1 f.2.1) bb).j_max) := by
  induction l generalizing bb with
  | nil => simp
  | cons a l ih =>
    rw [List.foldl_cons]
    obtain ⟨h1, h2, h3, h4, h5, h6⟩ := ih (bb.update a.1 a.2.1)
    simp only [BoundingBox.update] at h1 h2 h3 h4 h5 h6 ⊢
    refine ⟨?_, h2.trans inf_le_left, ?_, ?_, le_sup_left.trans h5, ?_⟩
    · rcases h1 with h1 | ⟨f, hf, hf1⟩
      · rcases le_total bb.j_min a.2.1 with hc | hc
        · exact Or.inl (by rw [h1, inf_eq_left.2 hc])
        · exact Or.inr ⟨a, List.mem_cons_self a l, by rw [h1, inf_eq_right.2 hc]⟩
      · exact Or.inr ⟨f, List.mem_cons_of_mem a hf, hf1⟩
    · intro f hf
      rcases List.mem_cons.1 hf with rfl | hf
      · exact h2.trans inf_le_right
      · exact h3 f hf
    · rcases h4 with h4 | ⟨f, hf, hf1⟩
      · rcases le_total a.2.1 bb.j_max with hc | hc
        · exact Or.inl (by rw [h4, sup_eq_left.2 hc])
        · exact Or.inr ⟨a, List.mem_cons_self a l, by rw [h4, sup_eq_right.2 hc]⟩
      · exact Or.inr ⟨f, List.mem_cons_of_mem a hf, hf1⟩
    · intro f hf
      rcases List.mem_cons.1 hf with rfl | hf
      · exact le_sup_right.trans h5
      · exact h6 f hf

theorem filterMap_survivor_coords (d : Diff) (l : List (Int × Int × CompactField)) :
    (l.filterMap (survivor d)).map (fun f => (f.1, f.2.1)) =
      (l.filter (fun f => !(d.won.contains f.1 f.2.1))).map (fun f => (f.1, f.2.1)) := by
  induction l with
  | nil => rfl
  | cons a l ih =>
    cases hs : survivor d a with
    | none =>
      have hw := survivor_none_inv d a hs
      simp [List.filterMap_cons, List.filter_cons, hs, hw, ih]
    | some entry =>
      obtain ⟨hw, he1, he2, _⟩ := survivor_some_inv d a entry hs
      simp [List.filterMap_cons, List.filter_cons, hs, hw, ih, he1, he2]

theorem filterMap_survivor_nodup (d : Diff) (l : List (Int × Int × CompactField))
    (hnd : (l.map (fun f => (f.1, f.2.1))).Nodup) :
    ((l.filterMap (survivor d)).map (fun f => (f.1, f.2.1))).Nodup := by
  rw [filterMap_survivor_coords]
  exact hnd.sublist (List.Sublist.map _ (List.filter_sublist l))

theorem find_coord_filterMap_survivor (d : Diff) (l : List (Int × Int × CompactField))
    (hnd : (l.map (fun f => (f.1, f.2.1))).Nodup) (i j : Int) :
    (l.filterMap (survivor d)).find? (fun f => decide (f.1 = i) && decide (f.2.1 = j)) =
      (l.find? (fun f => decide (f.1 = i) && decide (f.2.1 = j))).bind
        (fun f => survivor d f) := by
  induction l with
  | nil => simp
  | cons a l ih =>
    simp only [List.map_cons, List.nodup_cons] at hnd
    by_cases ha : a.1 = i ∧ a.2.1 = j
    · rw [List.find?_cons_of_pos _ (by simp [ha.1, ha.2])]
      simp only [Option.some_bind]
      cases hs : survivor d a with
      | none =>
        simp only [List.filterMap_cons, hs]
        rw [find_coord_eq_none_iff]
        intro hmem
        apply hnd.1
        rw [filterMap_survivor_coords] at hmem
        obtain ⟨f, hf, hco⟩ := List.mem_map.1 hmem
        rw [ha.1, ha.2]
        exact List.mem_map.2 ⟨f, List.mem_of_mem_filter hf, hco⟩
      | some entry =>
        obtain ⟨hw, he1, he2, _⟩ := survivor_some_inv d a entry hs
        simp only [List.filterMap_cons, hs]
        rw [List.find?_cons_of_pos _ (by simp [he1, he2, ha.1, ha.2])]
    · rw [List.find?_cons_of_neg _ (by simp only [Bool.and_eq_true, decide_eq_true_eq]; exact fun h => ha h)]
      cases hs : survivor d a with
      | none =>
        simp only [List.filterMap_cons, hs]
        exact ih hnd.2
      | some entry =>
        obtain ⟨hw, he1, he2, _⟩ := survivor_some_inv d a entry hs
        simp only [List.filterMap_cons, hs]
        rw [List.find?_cons_of_neg _ (by
          simp only [Bool.and_eq_true, decide_eq_true_eq, he1, he2]
          exact fun h => ha h)]
        exact ih hnd.2

theorem apply_fields (d : Diff) (b : Board) :
    (d.apply b).fields =
      b.fields.filterMap (survivor d) ++
        (if ∃ f ∈ b.fields, d.won.contains f.1 f.2.1 = false ∧
            (f.1, f.2.1) = (d.new_card_i, d.new_card_j) then
          ([] : List (Int × Int × CompactField))
         else [(d.new_card_i, d.new_card_j,
            flip_if (d.flipped.contains d.new_card_i d.new_card_j)
              (CompactField.new.place_card d.new_card))]) := by
  simp only [Diff.apply]
  by_cases hfl : (b.fields.foldl d.apply_step
      ⟨[], BoundingBox.singleton d.new_card_i d.new_card_j,
        fun _ => BitBoard.empty_board_centered_at (d.new_card_i, d.new_card_j),
        false⟩).field_for_new_card_already_exists = true
  · rw [if_pos hfl]
    have hex : ∃ f ∈ b.fields, d.won.contains f.1 f.2.1 = false ∧
        (f.1, f.2.1) = (d.new_card_i, d.new_card_j) := by
      rcases (apply_foldl_flag d b.fields _).1 hfl with h | h
      · exact absurd h (by simp)
      · exact h
    rw [if_pos hex, apply_foldl_new_fields]
    simp
  · rw [if_neg hfl]
    have hnex : ¬ ∃ f ∈ b.fields, d.won.contains f.1 f.2.1 = false ∧
        (f.1, f.2.1) = (d.new_card_i, d.new_card_j) := by
      intro hex
      exact hfl ((apply_foldl_flag d b.fields _).2 (Or.inr hex))
    rw [if_neg hnex]
    by_cases hfc : d.flipped.contains d.new_card_i d.new_card_j = true
    · rw [if_pos hfc, apply_foldl_new_fields]
      simp [flip_if, hfc]
    · rw [if_neg hfc, apply_foldl_new_fields]
      simp [flip_if, hfc]

theorem find_tail_none (d : Diff) (b : Board) (i j : Int)
    (hp : ¬ (i, j) = (d.new_card_i, d.new_card_j)) :
    (if ∃ f ∈ b.fields, d.won.contains f.1 f.2.1 = false ∧
        (f.1, f.2.1) = (d.new_card_i, d.new_card_j) then
      ([] : List (Int × Int × CompactField))
     else [(d.new_card_i, d.new_card_j,
        flip_if (d.flipped.contains d.new_card_i d.new_card_j)
          (CompactField.new.place_card d.new_card))]).find?
      (fun f => decide (f.1 = i) && decide (f.2.1 = j)) = none := by
  split
  · rfl
  · rw [List.find?_cons_of_neg]
    · rfl
    · simp only [Bool.and_eq_true, decide_eq_true_eq]
      rintro ⟨rfl, rfl⟩
      exact hp rfl

theorem option_some_or {A : Type} (a : A) (o : Option A) : (some a).or o = some a := rfl

/-- The stack that the play coordinate's new card lands on: the existing field if one
survives there, a fresh one otherwise. -/
def apply_base (g : Option CompactField) (w : Bool) : CompactField :=
  match g with
  | some f => if w then CompactField.new else f
  | none => CompactField.new

/-- The central pointwise description of `Diff::apply`: what `get` returns on the new
board, for boards with duplicate-free coordinates. -/
theorem apply_get (d : Diff) (b : Board)
    (hnd : (b.fields.map (fun f => (f.1, f.2.1))).Nodup) (i j : Int) :
    (d.apply b).get i j =
      if (i, j) = (d.new_card_i, d.new_card_j) then
        some (flip_if (d.flipped.contains i j)
          ((apply_base (b.get i j) (d.won.contains i j)).place_card d.new_card))
      else if d.won.contains i j then none
      else (b.get i j).map (fun f => flip_if (d.flipped.contains i j) f) := by
  cases hfind : b.fields.find? (fun f => decide (f.1 = i) && decide (f.2.1 = j)) with
  | none =>
    have hget : b.get i j = none := by
      unfold Board.get
      rw [hfind]
      rfl
    have hnotin : (i, j) ∉ b.fields.map (fun f => (f.1, f.2.1)) :=
      (find_coord_eq_none_iff b.fields i j).1 hfind
    rw [hget]
    unfold Board.get
    rw [apply_fields d b, List.find?_append, find_coord_filterMap_survivor d b.fields hnd,
      hfind]
    simp only [Option.none_bind, Option.none_or]
    by_cases hp : (i, j) = (d.new_card_i, d.new_card_j)
    · rw [if_pos hp]
      have hnex : ¬ ∃ f ∈ b.fields, d.won.contains f.1 f.2.1 = false ∧
          (f.1, f.2.1) = (d.new_card_i, d.new_card_j) := by
        rintro ⟨f, hf, _, hco⟩
        exact hnotin (by
          rw [hp]
          exact hco ▸ List.mem_map.2 ⟨f, hf, rfl⟩)
      rw [if_neg hnex]
      rw [List.find?_cons_of_pos _ (by
        simp only [Bool.and_eq_true, decide_eq_true_eq]
        exact ⟨(congrArg Prod.fst hp).symm, (congrArg Prod.snd hp).symm⟩)]
      simp only [Option.map_some', apply_base]
      rw [show d.new_card_i = i from (congrArg Prod.fst hp).symm,
        show d.new_card_j = j from (congrArg Prod.snd hp).symm]
    · rw [if_neg hp, find_tail_none d b i j hp]
      by_cases hw : d.won.contains i j = true
      · rw [if_pos hw]
        rfl
      · rw [if_neg hw]
        rfl
  | some f0 =>
    have hco : f0.1 = i ∧ f0.2.1 = j := by
      have := List.find?_some hfind
      simpa using this
    have hget : b.get i j = some f0.2.2 := by
      unfold Board.get
      rw [hfind]
      rfl
    rw [hget]
    unfold Board.get
    rw [apply_fields d b, List.find?_append, find_coord_filterMap_survivor d b.fields hnd,
      hfind]
    simp only [Option.some_bind]
    by_cases hw : d.won.contains i j = true
    · have hs : survivor d f0 = none := by
        unfold survivor
        rw [hco.1, hco.2, if_pos hw]
      rw [hs]
      simp only [Option.none_or]
      by_cases hp : (i, j) = (d.new_card_i, d.new_card_j)
      · rw [if_pos hp]
        have hnex : ¬ ∃ f ∈ b.fields, d.won.contains f.1 f.2.1 = false ∧
            (f.1, f.2.1) = (d.new_card_i, d.new_card_j) := by
          rintro ⟨f, hf, hnw, hcof⟩
          rw [← hp] at hcof
          rw [show f.1 = i from congrArg Prod.fst hcof,
            show f.2.1 = j from congrArg Prod.snd hcof, hw] at hnw
          exact absurd hnw (by simp)
        rw [if_neg hnex]
        rw [List.find?_cons_of_pos _ (by
          simp only [Bool.and_eq_true, decide_eq_true_eq]
          exact ⟨(congrArg Prod.fst hp).symm, (congrArg Prod.snd hp).symm⟩)]
        simp only [Option.map_some', apply_base, if_pos hw]
        rw [show d.new_card_i = i from (congrArg Prod.fst hp).symm,
          show d.new_card_j = j from (congrArg Prod.snd hp).symm]
      · rw [if_neg hp, find_tail_none d b i j hp, if_pos hw]
        rfl
    · have hs : survivor d f0 = some (f0.1, f0.2.1,
          flip_if (d.flipped.contains i j)
            (if (i, j) = (d.new_card_i, d.new_card_j) then
              f0.2.2.place_card d.new_card
             else f0.2.2)) := by
        unfold survivor
        rw [hco.1, hco.2, if_neg hw]
      rw [hs]
      simp only [option_some_or, Option.map_some', apply_base, if_neg hw]
      by_cases hp : (i, j) = (d.new_card_i, d.new_card_j)
      · rw [if_pos hp, if_pos hp]
      · rw [if_neg hp, if_neg hp]

/-! ### Emptiness, bbox and bitboards of the applied board -/

theorem board_mk_fields (fs : List (Int × Int × CompactField)) (c : Int × Int)
    (bb : BoundingBox) (bbs : Suit → BitBoard) : (Board.mk fs c bb bbs).fields = fs := rfl

theorem board_mk_bbox (fs : List (Int × Int × CompactField)) (c : Int × Int)
    (bb : BoundingBox) (bbs : Suit → BitBoard) : (Board.mk fs c bb bbs).bbox = bb := rfl

theorem board_mk_bitboards (fs : List (Int × Int × CompactField)) (c : Int × Int)
    (bb : BoundingBox) (bbs : Suit → BitBoard) :
    (Board.mk fs c bb bbs).bitboards = bbs := rfl

theorem apply_state_mk_bbox (fs : List (Int × Int × CompactField)) (bb : BoundingBox)
    (bbs : Suit → BitBoard) (fl : Bool) : (ApplyState.mk fs bb bbs fl).bbox = bb := rfl

theorem place_card_not_empty (f : CompactField) (c : Card) :
    ¬ (f.place_card c).is_empty := by
  simp [CompactField.place_card, CompactField.is_empty]

theorem turn_face_down_not_empty (f : CompactField) (h : ¬ f.is_empty) :
    ¬ f.turn_face_down.is_empty := by
  simp only [CompactField.turn_face_down, CompactField.is_empty, not_and] at h ⊢
  intro _ hu
  cases ht : f.top_card with
  | none =>
    rw [ht] at hu
    simp only [Option.toFinset_none, Finset.union_empty] at hu
    exact h ht hu
  | some c =>
    rw [ht] at hu
    simp only [Option.toFinset_some] at hu
    have hc : c ∈ f.hidden_cards ∪ {c} :=
      Finset.mem_union_right _ (Finset.mem_singleton_self c)
    rw [hu] at hc
    exact absurd hc (Finset.not_mem_empty c)

theorem flip_if_not_empty (c : Bool) (f : CompactField) (h : ¬ f.is_empty) :
    ¬ (flip_if c f).is_empty := by
  unfold flip_if
  cases c with
  | false => exact h
  | true => exact turn_face_down_not_empty f h

theorem apply_bbox (d : Diff) (b : Board) :
    (d.apply b).bbox =
      (b.fields.filter (fun f => !(d.won.contains f.1 f.2.1))).foldl
        (fun bb f => bb.update f.1 f.2.1)
        (BoundingBox.singleton d.new_card_i d.new_card_j) := by
  simp only [Diff.apply]
  split
  · rw [board_mk_bbox, apply_foldl_bbox, apply_state_mk_bbox]
  · split
    · rw [board_mk_bbox, apply_foldl_bbox, apply_state_mk_bbox]
    · rw [board_mk_bbox, apply_foldl_bbox, apply_state_mk_bbox]

theorem apply_bitboards_mem (d : Diff) (b : Board) (s : Suit) (p : Int × Int) :
    p ∈ ((d.apply b).bitboards s).coords ↔
      ∃ e ∈ (d.apply b).fields, (e.1, e.2.1) = p ∧
        ∃ c, e.2.2.top_card = some c ∧ c.suit = s := by
  rw [show (d.apply b).fields =
      b.fields.filterMap (survivor d) ++
        (if ∃ f ∈ b.fields, d.won.contains f.1 f.2.1 = false ∧
            (f.1, f.2.1) = (d.new_card_i, d.new_card_j) then
          ([] : List (Int × Int × CompactField))
         else [(d.new_card_i, d.new_card_j,
            flip_if (d.flipped.contains d.new_card_i d.new_card_j)
              (CompactField.new.place_card d.new_card))]) from apply_fields d b]
  simp only [Diff.apply]
  by_cases hfl : (b.fields.foldl d.apply_step
      ⟨[], BoundingBox.singleton d.new_card_i d.new_card_j,
        fun _ => BitBoard.empty_board_centered_at (d.new_card_i, d.new_card_j),
        false⟩).field_for_new_card_already_exists = true
  · rw [if_pos hfl]
    have hex : ∃ f ∈ b.fields, d.won.contains f.1 f.2.1 = false ∧
        (f.1, f.2.1) = (d.new_card_i, d.new_card_j) := by
      rcases (apply_foldl_flag d b.fields _).1 hfl with h | h
      · exact absurd h (by simp)
      · exact h
    rw [if_pos hex]
    rw [apply_foldl_bitboards]
    simp only [BitBoard.empty_board_centered_at, Finset.not_mem_empty, false_or,
      List.append_nil]
  · rw [if_neg hfl]
    have hnex : ¬ ∃ f ∈ b.fields, d.won.contains f.1 f.2.1 = false ∧
        (f.1, f.2.1) = (d.new_card_i, d.new_card_j) := by
      intro hex
      exact hfl ((apply_foldl_flag d b.fields _).2 (Or.inr hex))
    rw [if_neg hnex]
    by_cases hfc : d.flipped.contains d.new_card_i d.new_card_j = true
    · rw [if_pos hfc]
      rw [apply_foldl_bitboards]
      simp only [BitBoard.empty_board_centered_at, Finset.not_mem_empty, false_or]
      constructor
      · rintro ⟨e, he, hco, c, hc, hsu⟩
        exact ⟨e, List.mem_append_left _ he, hco, c, hc, hsu⟩
      · rintro ⟨e, he, hco, c, hc, hsu⟩
        rcases List.mem_append.1 he with he | he
        · exact ⟨e, he, hco, c, hc, hsu⟩
        · rcases List.mem_singleton.1 he with rfl
          rw [show flip_if (d.flipped.contains d.new_card_i d.new_card_j)
              (CompactField.new.place_card d.new_card) =
              (CompactField.new.place_card d.new_card).turn_face_down from by
            unfold flip_if
            rw [if_pos hfc]] at hc
          exact absurd hc (by simp [CompactField.turn_face_down])
    · rw [if_neg hfc]
      rw [board_mk_bitboards, update_suit_apply]
      by_cases hsu : s = d.new_card.suit
      · subst hsu
        rw [if_pos rfl]
        simp only [bitboard_insert_coords, Finset.mem_insert]
        rw [apply_foldl_bitboards]
        simp only [BitBoard.empty_board_centered_at, Finset.not_mem_empty, false_or]
        constructor
        · rintro (rfl | ⟨e, he, hco, c, hc, hsu'⟩)
          · refine ⟨(d.new_card_i, d.new_card_j,
              flip_if (d.flipped.contains d.new_card_i d.new_card_j)
                (CompactField.new.place_card d.new_card)),
              List.mem_append_right _ (List.mem_singleton_self _), rfl, d.new_card, ?_, rfl⟩
            rw [show flip_if (d.flipped.contains d.new_card_i d.new_card_j)
                (CompactField.new.place_card d.new_card) =
                CompactField.new.place_card d.new_card from by
              unfold flip_if
              rw [if_neg hfc]]
            rfl
          · exact ⟨e, List.mem_append_left _ he, hco, c, hc, hsu'⟩
        · rintro ⟨e, he, hco, c, hc, hsu'⟩
          rcases List.mem_append.1 he with he | he
          · exact Or.inr ⟨e, he, hco, c, hc, hsu'⟩
          · rcases List.mem_singleton.1 he with rfl
            exact Or.inl hco.symm
      · rw [if_neg hsu]
        rw [apply_foldl_bitboards]
        simp only [BitBoard.empty_board_centered_at, Finset.not_mem_empty, false_or]
        constructor
        · rintro ⟨e, he, hco, c, hc, hsu'⟩
          exact ⟨e, List.mem_append_left _ he, hco, c, hc, hsu'⟩
        · rintro ⟨e, he, hco, c, hc, hsu'⟩
          rcases List.mem_append.1 he with he | he
          · exact ⟨e, he, hco, c, hc, hsu'⟩
          · rcases List.mem_singleton.1 he with rfl
            rw [show flip_if (d.flipped.contains d.new_card_i d.new_card_j)
                (CompactField.new.place_card d.new_card) =
                CompactField.new.place_card d.new_card from by
              unfold flip_if
              rw [if_neg hfc]] at hc
            simp only [CompactField.place_card, Option.some.injEq] at hc
            rw [← hc] at hsu'
            exact absurd hsu'.symm hsu

theorem apply_fields_nodup (d : Diff) (b : Board)
    (hnd : (b.fields.map (fun f => (f.1, f.2.1))).Nodup) :
    ((d.apply b).fields.map (fun f => (f.1, f.2.1))).Nodup := by
  rw [apply_fields d b]
  by_cases hex : ∃ f ∈ b.fields, d.won.contains f.1 f.2.1 = false ∧
      (f.1, f.2.1) = (d.new_card_i, d.new_card_j)
  · rw [if_pos hex]
    simp only [List.append_nil]
    exact filterMap_survivor_nodup d b.fields hnd
  · rw [if_neg hex]
    rw [List.map_append, List.nodup_append]
    refine ⟨filterMap_survivor_nodup d b.fields hnd, by simp, ?_⟩
    intro p hp hq
    simp only [List.map_cons, List.map_nil, List.mem_singleton] at hq
    subst hq
    rw [filterMap_survivor_coords] at hp
    obtain ⟨f, hf, hco⟩ := List.mem_map.1 hp
    exact hex ⟨f, List.mem_of_mem_filter hf, by
      have := List.of_mem_filter hf
      simpa using this, hco⟩

/-! ### Playable area, neighbours, and remaining helpers -/

theorem playable_area_eq (b : Board)
    (h1 : -124 ≤ b.bbox.i_max) (h2 : b.bbox.i_min ≤ 123)
    (h3 : -124 ≤ b.bbox.j_max) (h4 : b.bbox.j_min ≤ 123)
    (_h5 : b.bbox.i_min ≤ b.bbox.i_max) (_h6 : b.bbox.j_min ≤ b.bbox.j_max)
    (h7 : b.bbox.i_max ≤ 127) (h8 : -128 ≤ b.bbox.j_min)
    (h9 : -128 ≤ b.bbox.i_min) (h10 : b.bbox.j_max ≤ 127) :
    b.playable_area = ⟨b.bbox.i_max - 3, b.bbox.j_max - 3,
      b.bbox.i_min + 3, b.bbox.j_min + 3⟩ := by
  unfold Board.playable_area BOARD_SIZE
  rw [wrap8_eq_self (b.bbox.i_max - 4 + 1) (by omega) (by omega),
    wrap8_eq_self (b.bbox.j_max - 4 + 1) (by omega) (by omega),
    wrap8_eq_self (b.bbox.i_min + 4 - 1) (by omega) (by omega),
    wrap8_eq_self (b.bbox.j_min + 4 - 1) (by omega) (by omega)]
  congr 1 <;> omega

theorem ortho_neighbors_ne (i j : Int) : ∀ p ∈ ortho_neighbors i j, p ≠ (i, j) := by
  intro p hp
  unfold ortho_neighbors wrap8 at hp
  simp only [List.mem_cons, List.not_mem_nil, or_false] at hp
  rcases hp with rfl | rfl | rfl | rfl <;>
    (intro hc
     injection hc with hc1 hc2
     omega)

theorem diag_neighbors_ne (i j : Int) : ∀ p ∈ diag_neighbors i j, p ≠ (i, j) := by
  intro p hp
  unfold diag_neighbors wrap8 at hp
  simp only [List.mem_cons, List.not_mem_nil, or_false] at hp
  rcases hp with rfl | rfl | rfl | rfl <;>
    (intro hc
     injection hc with hc1 hc2
     omega)

theorem fields_to_flip_king_ok_inv (b : Board) (ctp : CardToPlay) (fl : BitBoard)
    (hk : ctp.card.rank = Rank.king) (h : b.fields_to_flip ctp = Except.ok fl) :
    ∃ ti tj field, ctp.target_field_for_king_ability = some (ti, tj) ∧
      b.get ti tj = some field ∧ fl.coords = {(ti, tj)} := by
  cases ht : ctp.target_field_for_king_ability with
  | none =>
    simp only [Board.fields_to_flip, hk, ht] at h
    exact absurd h (by simp)
  | some tgt =>
    obtain ⟨ti, tj⟩ := tgt
    cases hg : b.get ti tj with
    | none =>
      simp only [Board.fields_to_flip, hk, ht, hg] at h
      exact absurd h (by simp)
    | some field =>
      simp only [Board.fields_to_flip, hk, ht, hg] at h
      by_cases hc : field.top_card = none ∧ (ctp.i, ctp.j) ≠ (ti, tj)
      · rw [if_pos hc] at h
        exact absurd h (by simp)
      · rw [if_neg hc] at h
        injection h with h
        exact ⟨ti, tj, field, rfl, hg, by rw [← h]; rfl⟩

theorem won_not_flipped (canPlace : Card → Card → Bool) (b : Board) (ctp : CardToPlay)
    (ce : CalculatedEffects) (h : b.calculate canPlace ctp = Except.ok ce) (p : Int × Int)
    (hf : ce.diff.flipped.contains p.1 p.2 = true) :
    ce.diff.won.contains p.1 p.2 = false := by
  obtain ⟨_, _, _, _, _, hwon, _⟩ := calculate_ok_inv canPlace b ctp ce h
  rw [hwon]
  simp only [BitBoard.contains, decide_eq_false_iff_not, bitboard_remove_coords,
    Finset.mem_erase, not_and]
  intro _
  intro hmem
  have hsub := lines_coords_subset
    (((b.bitboards ctp.card.suit).insert ctp.i ctp.j).difference ce.diff.flipped)
    ctp.i ctp.j hmem
  rw [bitboard_difference_coords] at hsub
  rw [bitboard_contains_iff] at hf
  exact absurd hf (Finset.mem_sdiff.1 hsub).2

theorem nodup_coords_eq (l : List (Int × Int × CompactField))
    (hnd : (l.map (fun f => (f.1, f.2.1))).Nodup) (f g : Int × Int × CompactField)
    (hf : f ∈ l) (hg : g ∈ l) (hco : (f.1, f.2.1) = (g.1, g.2.1)) : f = g := by
  injection hco with hco1 hco2
  have h1 : (f.1, f.2.1, f.2.2) ∈ l := hf
  have h2 : (f.1, f.2.1, g.2.2) ∈ l := by
    rw [hco1, hco2]
    exact hg
  have e1 := (find_coord_eq_some_iff l hnd f.1 f.2.1 f.2.2).2 h1
  have e2 := (find_coord_eq_some_iff l hnd f.1 f.2.1 g.2.2).2 h2
  rw [e1] at e2
  injection e2 with e2
  calc f = (f.1, f.2.1, f.2.2) := rfl
    _ = (g.1, g.2.1, g.2.2) := by rw [hco1, hco2, e2]
    _ = g := rfl

theorem mem_locations_for_card (canPlace : Card → Card → Bool) (b : Board) (card : Card)
    (p : Int × Int) :
    p ∈ (b.locations_for_card canPlace card).coords ↔
      (b.playable_area.i_min ≤ p.1 ∧ p.1 ≤ b.playable_area.i_max ∧
       b.playable_area.j_min ≤ p.2 ∧ p.2 ≤ b.playable_area.j_max) ∧
      ∀ f ∈ b.fields, f.2.2.can_place_card canPlace card = false → (f.1, f.2.1) ≠ p := by
  simp only [Board.locations_for_card]
  rw [mem_foldl_remove b.fields (fun cf => cf.can_place_card canPlace card)]
  simp only [BitBoard.insert_area, BitBoard.empty_board_centered_at, Finset.empty_union,
    Finset.mem_product, Finset.mem_Icc]
  tauto

theorem from_fields_list_some (fields : List (Int × Int × CompactField)) (b : Board)
    (h : Board.from_fields_list fields = some b) : b.fields = fields := by
  cases fields with
  | nil => exact absurd h (by simp [Board.from_fields_list])
  | cons f0 rest =>
    simp only [Board.from_fields_list] at h
    split at h
    · injection h with h
      subst h
      rfl
    · exact absurd h (by simp)

theorem filterMap_eq_self_of_some {A : Type} (l : List A) (g : A → Option A)
    (h : ∀ a ∈ l, g a = some a) : l.filterMap g = l := by
  induction l with
  | nil => rfl
  | cons a l ih =>
    rw [List.filterMap_cons, h a (List.mem_cons_self a l),
      ih (fun x hx => h x (List.mem_cons_of_mem a hx))]

instance : IsTotal Field' field_le := by
  constructor
  intro a b
  unfold field_le
  omega

instance : IsTrans Field' field_le := by
  constructor
  intro a b c
  unfold field_le
  omega

/-! ### Concrete example values used by the witnesses -/

/-- A compatibility predicate instance (the rule itself is external to this core). -/
def canPlaceAny : Card → Card → Bool := fun _ _ => true

def boardDefault : Board :=
  ⟨[(0, 0, ⟨some ⟨Rank.two, Suit.club⟩, ∅⟩)], (0, 0), ⟨0, 0, 0, 0⟩,
    fun _ => BitBoard.empty_board_centered_at (0, 0)⟩

/-- The straight-line board 4♦ 5♦ 6♦ A♠ from the repository's own test. -/
def exHorizontal : Board :=
  (Board.new [⟨-1, 0, some ⟨Rank.four, Suit.diamond⟩, ∅⟩,
    ⟨-1, -1, some ⟨Rank.five, Suit.diamond⟩, ∅⟩,
    ⟨-1, -2, some ⟨Rank.six, Suit.diamond⟩, ∅⟩,
    ⟨-1, -3, some ⟨Rank.ace, Suit.spade⟩, ∅⟩]).getD boardDefault

def exPlayAce : CardToPlay := ⟨⟨Rank.ace, Suit.diamond⟩, -1, -3, none⟩

def exJackBoard : Board :=
  (Board.new [⟨0, 0, some ⟨Rank.four, Suit.diamond⟩, ∅⟩,
    ⟨0, 1, some ⟨Rank.five, Suit.diamond⟩, ∅⟩]).getD boardDefault

def exPlayJack : CardToPlay := ⟨⟨Rank.jack, Suit.spade⟩, 0, 0, none⟩

/-- A board with a fully face-down cell at `(0, 1)`. -/
def exKingBoard : Board :=
  (Board.new [⟨0, 0, some ⟨Rank.four, Suit.diamond⟩, ∅⟩,
    ⟨0, 1, none, {⟨Rank.five, Suit.diamond⟩}⟩]).getD boardDefault

def exPlayKing : CardToPlay := ⟨⟨Rank.king, Suit.spade⟩, 0, 1, some (0, 1)⟩

/-- A single card at the extreme corner of the `i8` range. -/
def exExtreme : Board :=
  (Board.new [⟨-128, -128, some ⟨Rank.four, Suit.diamond⟩, ∅⟩]).getD boardDefault

def except_is_ok {E A : Type} (x : Except E A) : Bool :=
  match x with
  | Except.ok _ => true
  | Except.error _ => false

/-! ### The claims -/

/-- C1: for every board and every accepted play of a card at `(i, j)`, the won set
computed by `calculate` equals the played suit's bitboard with `(i, j)` inserted,
minus the flip set, evaluated by `lines_going_through_point` at `(i, j)`, with
`(i, j)` itself removed afterward — hence the target coordinate is never in the won
set, and no coordinate flipped this turn is ever in the won set. -/
theorem c1_won_set_formula (canPlace : Card → Card → Bool) (b : Board)
    (ctp : CardToPlay) (ce : CalculatedEffects)
    (h : b.calculate canPlace ctp = Except.ok ce) :
    ce.diff.won = ((((b.bitboards ctp.card.suit).insert ctp.i ctp.j).difference
      ce.diff.flipped).lines_going_through_point ctp.i ctp.j).remove ctp.i ctp.j ∧
    ce.diff.won.contains ctp.i ctp.j = false ∧
    ∀ p : Int × Int, ce.diff.flipped.contains p.1 p.2 = true →
      ce.diff.won.contains p.1 p.2 = false := by
  obtain ⟨_, _, _, _, _, hwon, _⟩ := calculate_ok_inv canPlace b ctp ce h
  refine ⟨hwon, ?_, fun p hp => won_not_flipped canPlace b ctp ce h p hp⟩
  rw [hwon]
  simp [BitBoard.contains, BitBoard.remove]

theorem c1_witness :
    ∃ ce, exHorizontal.calculate canPlaceAny exPlayAce = Except.ok ce ∧
      ce.diff.won.contains (-1) (-3) = false ∧
      ∀ p : Int × Int, ce.diff.flipped.contains p.1 p.2 = true →
        ce.diff.won.contains p.1 p.2 = false := by
  cases hce : exHorizontal.calculate canPlaceAny exPlayAce with
  | error e =>
    have hok : except_is_ok (exHorizontal.calculate canPlaceAny exPlayAce) = true := by
      decide
    rw [hce] at hok
    exact absurd hok (by simp [except_is_ok])
  | ok ce =>
    obtain ⟨_, h2, h3⟩ := c1_won_set_formula canPlaceAny exHorizontal exPlayAce ce hce
    exact ⟨ce, rfl, h2, h3⟩

/-- C3: for every board and card-to-play, `calculate` either succeeds or returns
exactly one of the five rejection values, each only under its stated condition:
out-of-bounds target; incompatible existing card carrying the blocking card;
King ability missing its target; King target cell nonexistent; King target face-down,
only with the target different from the play coordinate.  `calculate` is a pure
function of the board in this embedding, so rejection leaves the board unchanged by
construction. -/
theorem c3_rejection_taxonomy (canPlace : Card → Card → Bool) (b : Board)
    (ctp : CardToPlay) (e : IllegalCardPlayed)
    (h : b.calculate canPlace ctp = Except.error e) :
    (e = IllegalCardPlayed.outOfBounds ∧ b.is_in_bounds ctp.i ctp.j = false) ∨
    (∃ f c, e = IllegalCardPlayed.incompatibleCard c ∧
      b.is_in_bounds ctp.i ctp.j = true ∧ b.get ctp.i ctp.j = some f ∧
      f.top_card = some c ∧ canPlace ctp.card c = false) ∨
    (b.is_in_bounds ctp.i ctp.j = true ∧ (b.get ctp.i ctp.j).isSome = true ∧
      ctp.card.rank = Rank.king ∧
      ((e = IllegalCardPlayed.noTargetForKingAbility ∧
          ctp.target_field_for_king_ability = none) ∨
       (∃ ti tj, e = IllegalCardPlayed.targetForKingAbilityDoesNotExist ti tj ∧
          ctp.target_field_for_king_ability = some (ti, tj) ∧ b.get ti tj = none) ∨
       (∃ ti tj f, e = IllegalCardPlayed.targetForKingAbilityIsFaceDown ti tj ∧
          ctp.target_field_for_king_ability = some (ti, tj) ∧ b.get ti tj = some f ∧
          f.top_card = none ∧ (ctp.i, ctp.j) ≠ (ti, tj)))) :=
  calculate_error_inv canPlace b ctp e h

theorem c3_witness :
    (IllegalCardPlayed.outOfBounds = IllegalCardPlayed.outOfBounds ∧
      exHorizontal.is_in_bounds 50 50 = false) ∨
    (∃ f c, IllegalCardPlayed.outOfBounds = IllegalCardPlayed.incompatibleCard c ∧
      exHorizontal.is_in_bounds 50 50 = true ∧ exHorizontal.get 50 50 = some f ∧
      f.top_card = some c ∧ canPlaceAny ⟨Rank.ace, Suit.diamond⟩ c = false) ∨
    (exHorizontal.is_in_bounds 50 50 = true ∧ (exHorizontal.get 50 50).isSome = true ∧
      (⟨Rank.ace, Suit.diamond⟩ : Card).rank = Rank.king ∧
      ((IllegalCardPlayed.outOfBounds = IllegalCardPlayed.noTargetForKingAbility ∧
          (none : Option (Int × Int)) = none) ∨
       (∃ ti tj, IllegalCardPlayed.outOfBounds =
          IllegalCardPlayed.targetForKingAbilityDoesNotExist ti tj ∧
          (none : Option (Int × Int)) = some (ti, tj) ∧ exHorizontal.get ti tj = none) ∨
       (∃ ti tj f, IllegalCardPlayed.outOfBounds =
          IllegalCardPlayed.targetForKingAbilityIsFaceDown ti tj ∧
          (none : Option (Int × Int)) = some (ti, tj) ∧ exHorizontal.get ti tj = some f ∧
          f.top_card = none ∧ ((50 : Int), (50 : Int)) ≠ (ti, tj)))) :=
  c3_rejection_taxonomy canPlaceAny exHorizontal
    ⟨⟨Rank.ace, Suit.diamond⟩, 50, 50, none⟩ IllegalCardPlayed.outOfBounds rfl

/-- C4: the flip set of a successful play is empty whenever the target cell does not
already exist, regardless of rank; when the target cell exists, a Jack flips exactly
the in-bounds subset of the four orthogonal neighbours, a Queen exactly the in-bounds
subset of the four diagonal neighbours, and every rank other than Jack, Queen, King
yields an empty flip set. -/
theorem c4_flip_set_cases (canPlace : Card → Card → Bool) (b : Board)
    (ctp : CardToPlay) (ce : CalculatedEffects)
    (h : b.calculate canPlace ctp = Except.ok ce) :
    (b.get ctp.i ctp.j = none → ce.diff.flipped.coords = ∅) ∧
    (∀ f, b.get ctp.i ctp.j = some f → ctp.card.rank = Rank.jack →
      ce.diff.flipped.coords = ((ortho_neighbors ctp.i ctp.j).filter
        (fun p => b.is_in_bounds p.1 p.2)).toFinset) ∧
    (∀ f, b.get ctp.i ctp.j = some f → ctp.card.rank = Rank.queen →
      ce.diff.flipped.coords = ((diag_neighbors ctp.i ctp.j).filter
        (fun p => b.is_in_bounds p.1 p.2)).toFinset) ∧
    (ctp.card.rank ≠ Rank.jack → ctp.card.rank ≠ Rank.queen →
      ctp.card.rank ≠ Rank.king → ce.diff.flipped.coords = ∅) := by
  obtain ⟨_, _, _, h4, h5, _⟩ := calculate_ok_inv canPlace b ctp ce h
  refine ⟨?_, ?_, ?_, ?_⟩
  · intro hg
    rw [h5 hg]
    rfl
  · intro f hg hj
    obtain ⟨fl, hfl, hco⟩ := fields_to_flip_jack b ctp hj
    have := h4 (by rw [hg]; rfl)
    rw [this] at hfl
    injection hfl with hfl
    rw [hfl]
    exact hco
  · intro f hg hq
    obtain ⟨fl, hfl, hco⟩ := fields_to_flip_queen b ctp hq
    have := h4 (by rw [hg]; rfl)
    rw [this] at hfl
    injection hfl with hfl
    rw [hfl]
    exact hco
  · intro hj hq hk
    cases hg : b.get ctp.i ctp.j with
    | none =>
      rw [h5 hg]
      rfl
    | some f =>
      have := h4 (by rw [hg]; rfl)
      rw [fields_to_flip_other b ctp hj hq hk] at this
      injection this with this
      rw [← this]
      rfl

theorem c4_witness :
    ∃ ce, exJackBoard.calculate canPlaceAny exPlayJack = Except.ok ce ∧
      ce.diff.flipped.coords = ((ortho_neighbors 0 0).filter
        (fun p => exJackBoard.is_in_bounds p.1 p.2)).toFinset := by
  cases hce : exJackBoard.calculate canPlaceAny exPlayJack with
  | error e =>
    have hok : except_is_ok (exJackBoard.calculate canPlaceAny exPlayJack) = true := by
      decide
    rw [hce] at hok
    exact absurd hok (by simp [except_is_ok])
  | ok ce =>
    obtain ⟨_, h2, _, _⟩ := c4_flip_set_cases canPlaceAny exJackBoard exPlayJack ce hce
    exact ⟨ce, rfl, h2 ⟨some ⟨Rank.four, Suit.diamond⟩, ∅⟩ (by decide) rfl⟩

/-- C5: for every successful `calculate`, the returned won-cards set is the union,
over every coordinate in the won set, of that cell's full stack (visible top card and
all hidden cards), and after `execute` none of those coordinates is present in the new
board's field list. -/
theorem c5_won_cards_union (canPlace : Card → Card → Bool) (b : Board)
    (ctp : CardToPlay) (ce : CalculatedEffects) (hWf : b.Wf)
    (h : b.calculate canPlace ctp = Except.ok ce) :
    (∀ c, c ∈ ce.cards_won ↔
      ∃ f ∈ b.fields, ce.diff.won.contains f.1 f.2.1 = true ∧ c ∈ f.2.2.all_cards) ∧
    ∀ p : Int × Int, ce.diff.won.contains p.1 p.2 = true →
      (ce.execute b).get p.1 p.2 = none := by
  obtain ⟨_, _, _, _, _, hwon, _, h8, h9, hcards⟩ := calculate_ok_inv canPlace b ctp ce h
  obtain ⟨_, hnd, _⟩ := hWf
  constructor
  · intro c
    rw [hcards, mem_foldl_union_filter]
    simp only [Finset.not_mem_empty, false_or]
  · intro p hp
    have hppne : (p.1, p.2) ≠ (ce.diff.new_card_i, ce.diff.new_card_j) := by
      intro hc
      have h1 : ce.diff.won.contains ctp.i ctp.j = false := by
        rw [hwon]
        simp [BitBoard.contains, BitBoard.remove]
      rw [h8, h9] at hc
      injection hc with hc1 hc2
      rw [hc1, hc2] at hp
      rw [hp] at h1
      exact absurd h1 (by simp)
    have := apply_get ce.diff b hnd p.1 p.2
    rw [show ce.execute b = ce.diff.apply b from rfl, this, if_neg hppne, if_pos hp]

theorem c5_witness :
    ∃ ce, exHorizontal.calculate canPlaceAny exPlayAce = Except.ok ce ∧
      (∀ c, c ∈ ce.cards_won ↔ ∃ f ∈ exHorizontal.fields,
        ce.diff.won.contains f.1 f.2.1 = true ∧ c ∈ f.2.2.all_cards) ∧
      ∀ p : Int × Int, ce.diff.won.contains p.1 p.2 = true →
        (ce.execute exHorizontal).get p.1 p.2 = none := by
  cases hce : exHorizontal.calculate canPlaceAny exPlayAce with
  | error e =>
    have hok : except_is_ok (exHorizontal.calculate canPlaceAny exPlayAce) = true := by
      decide
    rw [hce] at hok
    exact absurd hok (by simp [except_is_ok])
  | ok ce =>
    obtain ⟨h1, h2⟩ := c5_won_cards_union canPlaceAny exHorizontal exPlayAce ce
      (by decide) hce
    exact ⟨ce, rfl, h1, h2⟩

/-- C2: for every well-formed board and every play whose `calculate` succeeds, the
board produced by `execute` is representation-valid: its bounding box spans at most
`BOARD_SIZE` on each axis, every entry in its field list has a top card or at least
one hidden card, and each suit's bitboard contains exactly the coordinates whose field
has a visible top card of that suit. -/
theorem c2_execute_representation_valid (canPlace : Card → Card → Bool) (b : Board)
    (ctp : CardToPlay) (ce : CalculatedEffects) (hWf : b.Wf)
    (h : b.calculate canPlace ctp = Except.ok ce) :
    (ce.execute b).bbox.size_i ≤ BOARD_SIZE ∧
    (ce.execute b).bbox.size_j ≤ BOARD_SIZE ∧
    (∀ f ∈ (ce.execute b).fields, ¬ f.2.2.is_empty) ∧
    (∀ (s : Suit) (i j : Int), ((ce.execute b).bitboards s).contains i j = true ↔
      ∃ cf c, (ce.execute b).get i j = some cf ∧ cf.top_card = some c ∧ c.suit = s) := by
  obtain ⟨hb, _, _, _, _, _, _, h8, h9, _⟩ := calculate_ok_inv canPlace b ctp ce h
  obtain ⟨hne, hnd, hcne, hbbox, hle_i, hle_j, hsp_i, hsp_j, _⟩ := hWf
  simp only [BOARD_SIZE] at hsp_i hsp_j
  have hbnds := (is_in_bounds_iff b ctp.i ctp.j hle_i hle_j).1 hb
  have hexec : ce.execute b = ce.diff.apply b := rfl
  refine ⟨?_, ?_, ?_, ?_⟩
  · rw [hexec, apply_bbox ce.diff b, h8, h9]
    obtain ⟨hmin_at, _, _, hmax_at, _, _⟩ :=
      foldl_update_i_bounds
        (b.fields.filter (fun f => !(ce.diff.won.contains f.1 f.2.1)))
        (BoundingBox.singleton ctp.i ctp.j)
    unfold BoundingBox.size_i
    simp only [BoundingBox.singleton, BOARD_SIZE] at hmin_at hmax_at ⊢
    rcases hmin_at with hm | ⟨f, hf, hm⟩ <;> rcases hmax_at with hM | ⟨g, hg, hM⟩
    · omega
    · obtain ⟨hg1, hg2, _⟩ := hbbox g (List.mem_of_mem_filter hg)
      omega
    · obtain ⟨hf1, hf2, _⟩ := hbbox f (List.mem_of_mem_filter hf)
      omega
    · obtain ⟨hf1, hf2, _⟩ := hbbox f (List.mem_of_mem_filter hf)
      obtain ⟨hg1, hg2, _⟩ := hbbox g (List.mem_of_mem_filter hg)
      omega
  · rw [hexec, apply_bbox ce.diff b, h8, h9]
    obtain ⟨hmin_at, _, _, hmax_at, _, _⟩ :=
      foldl_update_j_bounds
        (b.fields.filter (fun f => !(ce.diff.won.contains f.1 f.2.1)))
        (BoundingBox.singleton ctp.i ctp.j)
    unfold BoundingBox.size_j
    simp only [BoundingBox.singleton, BOARD_SIZE] at hmin_at hmax_at ⊢
    rcases hmin_at with hm | ⟨f, hf, hm⟩ <;> rcases hmax_at with hM | ⟨g, hg, hM⟩
    · omega
    · obtain ⟨_, _, hg1, hg2⟩ := hbbox g (List.mem_of_mem_filter hg)
      omega
    · obtain ⟨_, _, hf1, hf2⟩ := hbbox f (List.mem_of_mem_filter hf)
      omega
    · obtain ⟨_, _, hf1, hf2⟩ := hbbox f (List.mem_of_mem_filter hf)
      obtain ⟨_, _, hg1, hg2⟩ := hbbox g (List.mem_of_mem_filter hg)
      omega
  · intro f hf
    rw [hexec, apply_fields ce.diff b] at hf
    rcases List.mem_append.1 hf with hf | hf
    · obtain ⟨a, ha, hsa⟩ := List.mem_filterMap.1 hf
      obtain ⟨_, _, _, he3⟩ := survivor_some_inv ce.diff a f hsa
      rw [he3]
      apply flip_if_not_empty
      by_cases hcp : (a.1, a.2.1) = (ce.diff.new_card_i, ce.diff.new_card_j)
      · rw [if_pos hcp]
        exact place_card_not_empty a.2.2 ce.diff.new_card
      · rw [if_neg hcp]
        exact hcne a ha
    · split at hf
      · exact absurd hf (by simp)
      · rcases List.mem_singleton.1 hf with rfl
        exact flip_if_not_empty _ _
          (place_card_not_empty CompactField.new ce.diff.new_card)
  · intro s i j
    have hnd' := apply_fields_nodup ce.diff b hnd
    rw [hexec, bitboard_contains_iff, apply_bitboards_mem]
    constructor
    · rintro ⟨e, he, hco, c, hc, hsu⟩
      injection hco with hco1 hco2
      refine ⟨e.2.2, c, ?_, hc, hsu⟩
      apply (find_coord_eq_some_iff (ce.diff.apply b).fields hnd' i j e.2.2).2
      rw [← hco1, ← hco2]
      exact he
    · rintro ⟨cf, c, hget, hc, hsu⟩
      exact ⟨(i, j, cf),
        (find_coord_eq_some_iff (ce.diff.apply b).fields hnd' i j cf).1 hget,
        rfl, c, hc, hsu⟩

theorem c2_witness :
    ∃ ce, exHorizontal.calculate canPlaceAny exPlayAce = Except.ok ce ∧
      (ce.execute exHorizontal).bbox.size_i ≤ BOARD_SIZE ∧
      (ce.execute exHorizontal).bbox.size_j ≤ BOARD_SIZE ∧
      (∀ f ∈ (ce.execute exHorizontal).fields, ¬ f.2.2.is_empty) ∧
      (∀ (s : Suit) (i j : Int),
        ((ce.execute exHorizontal).bitboards s).contains i j = true ↔
        ∃ cf c, (ce.execute exHorizontal).get i j = some cf ∧
          cf.top_card = some c ∧ c.suit = s) := by
  cases hce : exHorizontal.calculate canPlaceAny exPlayAce with
  | error e =>
    have hok : except_is_ok (exHorizontal.calculate canPlaceAny exPlayAce) = true := by
      decide
    rw [hce] at hok
    exact absurd hok (by simp [except_is_ok])
  | ok ce =>
    obtain ⟨h1, h2, h3, h4⟩ := c2_execute_representation_valid canPlaceAny exHorizontal
      exPlayAce ce (by decide) hce
    exact ⟨ce, rfl, h1, h2, h3, h4⟩

/-- C9: a combo King play whose ability target is the play coordinate itself succeeds
whenever the target cell exists and its visible top card (if any) accepts the King,
even if the cell is entirely face-down; in the resulting board the just-played King is
immediately face-down (the cell has no visible top card and belongs to no suit
bitboard), and the won set of the play is empty. -/
theorem c9_king_self_target (canPlace : Card → Card → Bool) (b : Board)
    (ctp : CardToPlay) (f : CompactField) (hWf : b.Wf)
    (hb : b.is_in_bounds ctp.i ctp.j = true)
    (hk : ctp.card.rank = Rank.king)
    (ht : ctp.target_field_for_king_ability = some (ctp.i, ctp.j))
    (hg : b.get ctp.i ctp.j = some f)
    (hcompat : ∀ c, f.top_card = some c → canPlace ctp.card c = true) :
    ∃ ce, b.calculate canPlace ctp = Except.ok ce ∧
      ce.diff.flipped.coords = {(ctp.i, ctp.j)} ∧
      ce.diff.won.coords = ∅ ∧
      (∃ f', (ce.execute b).get ctp.i ctp.j = some f' ∧ f'.top_card = none) ∧
      ∀ s, ((ce.execute b).bitboards s).contains ctp.i ctp.j = false := by
  obtain ⟨_, hnd, _⟩ := hWf
  obtain ⟨fl, hfl, hflco⟩ := fields_to_flip_king_ok b ctp ctp.i ctp.j f hk ht hg
    (by rintro ⟨_, hne⟩; exact hne rfl)
  obtain ⟨ce, hrest⟩ : ∃ ce, b.calculate_rest ctp (some f) = Except.ok ce := by
    rw [Board.calculate_rest]
    simp only [Option.isSome_some, if_true, hfl]
    exact ⟨_, rfl⟩
  have hcalc : b.calculate canPlace ctp = Except.ok ce := by
    rw [Board.calculate, if_pos hb]
    simp only [hg, Option.some_bind]
    cases htc : f.top_card with
    | none => exact hrest
    | some c =>
      show (if canPlace ctp.card c = true then b.calculate_rest ctp (some f)
        else Except.error (IllegalCardPlayed.incompatibleCard c)) = Except.ok ce
      rw [if_pos (hcompat c htc)]
      exact hrest
  obtain ⟨hcombo, hflip2, _, hwon, h7, h8, h9, _⟩ :=
    calculate_rest_ok_inv b ctp (some f) ce hrest
  have hfleq : ce.diff.flipped = fl := by
    have h2 := hflip2 rfl
    rw [hfl] at h2
    injection h2 with h2
    exact h2.symm
  have hcont : ce.diff.flipped.contains ctp.i ctp.j = true := by
    rw [bitboard_contains_iff, hfleq, hflco]
    exact Finset.mem_singleton_self _
  have hwe : ce.diff.won.coords = ∅ := by
    rw [hwon]
    have hnm : (ctp.i, ctp.j) ∉ (((b.bitboards ctp.card.suit).insert ctp.i
        ctp.j).difference ce.diff.flipped).coords := by
      rw [bitboard_difference_coords]
      intro hmem
      apply (Finset.mem_sdiff.1 hmem).2
      rw [hfleq, hflco]
      exact Finset.mem_singleton_self _
    rw [bitboard_remove_coords, lines_coords_empty _ _ _ hnm]
    simp
  have hgetex : ∃ f', (ce.diff.apply b).get ctp.i ctp.j = some f' ∧
      f'.top_card = none := by
    rw [apply_get ce.diff b hnd ctp.i ctp.j, h8, h9, if_pos rfl, hcont]
    exact ⟨_, rfl, rfl⟩
  obtain ⟨f', hget', htop'⟩ := hgetex
  refine ⟨ce, hcalc, by rw [hfleq, hflco], hwe, ⟨f', hget', htop'⟩, ?_⟩
  intro s
  show ((ce.diff.apply b).bitboards s).contains ctp.i ctp.j = false
  have hnm : (ctp.i, ctp.j) ∉ ((ce.diff.apply b).bitboards s).coords := by
    rw [apply_bitboards_mem]
    rintro ⟨e, he, hco, c, hc, _⟩
    have hnd' := apply_fields_nodup ce.diff b hnd
    have hgete : (ce.diff.apply b).get ctp.i ctp.j = some e.2.2 := by
      apply (find_coord_eq_some_iff _ hnd' _ _ _).2
      injection hco with hco1 hco2
      rw [← hco1, ← hco2]
      exact he
    rw [hget'] at hgete
    injection hgete with hgete
    rw [hgete] at htop'
    rw [htop'] at hc
    exact absurd hc (by simp)
  simp [BitBoard.contains, hnm]

theorem c9_witness :
    ∃ ce, exKingBoard.calculate canPlaceAny exPlayKing = Except.ok ce ∧
      ce.diff.flipped.coords = {((0 : Int), (1 : Int))} ∧
      ce.diff.won.coords = ∅ ∧
      (∃ f', (ce.execute exKingBoard).get 0 1 = some f' ∧ f'.top_card = none) ∧
      ∀ s, ((ce.execute exKingBoard).bitboards s).contains 0 1 = false :=
  c9_king_self_target canPlaceAny exKingBoard exPlayKing
    ⟨none, {⟨Rank.five, Suit.diamond⟩}⟩ (by decide) (by decide) rfl rfl (by decide)
    (fun c hc => Option.noConfusion hc)

/-- C10: the flip set of a successful play may include in-bounds coordinates with no
cell; executing the plan leaves those coordinates unoccupied (no cell is created
there), and every cell outside the won set, the flip set, and the play coordinate is
carried into the new board unchanged. -/
theorem c10_flip_frame (canPlace : Card → Card → Bool) (b : Board) (ctp : CardToPlay)
    (ce : CalculatedEffects) (hWf : b.Wf)
    (h : b.calculate canPlace ctp = Except.ok ce) :
    (∀ p : Int × Int, ce.diff.flipped.contains p.1 p.2 = true → b.get p.1 p.2 = none →
      (ce.execute b).get p.1 p.2 = none) ∧
    (∀ q : Int × Int, ce.diff.won.contains q.1 q.2 = false →
      ce.diff.flipped.contains q.1 q.2 = false → (q.1, q.2) ≠ (ctp.i, ctp.j) →
      (ce.execute b).get q.1 q.2 = b.get q.1 q.2) := by
  obtain ⟨hb, _, _, h4, h5, hwon, h7, h8, h9, _⟩ := calculate_ok_inv canPlace b ctp ce h
  obtain ⟨_, hnd, _⟩ := hWf
  have hexec : ce.execute b = ce.diff.apply b := rfl
  constructor
  · intro p hfp hgp
    have hne : (p.1, p.2) ≠ (ctp.i, ctp.j) := by
      cases hgc : b.get ctp.i ctp.j with
      | none =>
        rw [h5 hgc] at hfp
        exact absurd hfp (by simp [BitBoard.contains, BitBoard.empty_board_centered_at])
      | some f0 =>
        have hff := h4 (by rw [hgc]; rfl)
        cases hrk : ctp.card.rank
        case jack =>
          obtain ⟨fl, hfl, hco⟩ := fields_to_flip_jack b ctp hrk
          rw [hff] at hfl
          injection hfl with hfl
          rw [bitboard_contains_iff, hfl, hco] at hfp
          exact ortho_neighbors_ne ctp.i ctp.j (p.1, p.2)
            (List.mem_of_mem_filter (List.mem_toFinset.1 hfp))
        case queen =>
          obtain ⟨fl, hfl, hco⟩ := fields_to_flip_queen b ctp hrk
          rw [hff] at hfl
          injection hfl with hfl
          rw [bitboard_contains_iff, hfl, hco] at hfp
          exact diag_neighbors_ne ctp.i ctp.j (p.1, p.2)
            (List.mem_of_mem_filter (List.mem_toFinset.1 hfp))
        case king =>
          obtain ⟨ti, tj, field, htg, hgt, hco⟩ :=
            fields_to_flip_king_ok_inv b ctp ce.diff.flipped hrk hff
          rw [bitboard_contains_iff, hco, Finset.mem_singleton] at hfp
          injection hfp with hf1 hf2
          rw [hf1, hf2, hgt] at hgp
          exact absurd hgp (by simp)
        all_goals (
          rw [fields_to_flip_other b ctp (by rw [hrk]; decide) (by rw [hrk]; decide)
            (by rw [hrk]; decide)] at hff
          injection hff with hff
          rw [← hff] at hfp
          exact absurd hfp
            (by simp [BitBoard.contains, BitBoard.empty_board_centered_at]))
    have hag := apply_get ce.diff b hnd p.1 p.2
    rw [h8, h9] at hag
    have hw : ce.diff.won.contains p.1 p.2 = false :=
      won_not_flipped canPlace b ctp ce h p hfp
    rw [hexec, hag, if_neg hne, if_neg (by rw [hw]; simp), hgp]
    rfl
  · intro q hqw hqf hqne
    have hag := apply_get ce.diff b hnd q.1 q.2
    rw [h8, h9] at hag
    rw [hexec, hag, if_neg hqne, if_neg (by rw [hqw]; simp), hqf]
    cases hgq : b.get q.1 q.2 with
    | none => rfl
    | some f0 => simp [flip_if]

theorem c10_witness :
    ∃ ce, exJackBoard.calculate canPlaceAny exPlayJack = Except.ok ce ∧
      ce.diff.flipped.contains 1 0 = true ∧ exJackBoard.get 1 0 = none ∧
      (ce.execute exJackBoard).get 1 0 = none ∧
      (ce.execute exJackBoard).get 2 2 = exJackBoard.get 2 2 := by
  cases hce : exJackBoard.calculate canPlaceAny exPlayJack with
  | error e =>
    have hok : except_is_ok (exJackBoard.calculate canPlaceAny exPlayJack) = true := by
      decide
    rw [hce] at hok
    exact absurd hok (by simp [except_is_ok])
  | ok ce =>
    obtain ⟨h1, h2⟩ := c10_flip_frame canPlaceAny exJackBoard exPlayJack ce
      (by decide) hce
    obtain ⟨_, _, _, h4, _, hwon, _, _, _, _⟩ :=
      calculate_ok_inv canPlaceAny exJackBoard exPlayJack ce hce
    obtain ⟨fl, hfl, hco⟩ := fields_to_flip_jack exJackBoard exPlayJack rfl
    have hff := h4 (by decide)
    rw [hfl] at hff
    injection hff with hff
    have hflip_eq : ce.diff.flipped = fl := hff.symm
    have hfp : ce.diff.flipped.contains 1 0 = true := by
      rw [bitboard_contains_iff, hflip_eq, hco]
      decide
    have hf22 : ce.diff.flipped.contains 2 2 = false := by
      simp only [BitBoard.contains, hflip_eq, hco, decide_eq_false_iff_not]
      decide
    have hw22 : ce.diff.won.contains 2 2 = false := by
      rw [hwon]
      simp only [BitBoard.contains, bitboard_remove_coords, decide_eq_false_iff_not]
      intro hmem
      have hsub := lines_coords_subset _ 0 0 (Finset.mem_of_mem_erase hmem)
      rw [bitboard_difference_coords] at hsub
      have hin := (Finset.mem_sdiff.1 hsub).1
      exact absurd hin (by decide)
    exact ⟨ce, rfl, hfp, by decide, h1 (1, 0) hfp (by decide),
      h2 (2, 2) hw22 hf22 (by decide)⟩

/-- C7: the snapshot of any board is sorted ascending by coordinate `(i, j)`; and for
every non-empty list of (non-empty) cells that fits the four-span limit, construction
followed by `to_fields_vec` yields exactly the input cells (as a permutation), sorted
ascending by coordinate. -/
theorem c7_round_trip :
    (∀ b : Board, List.Sorted field_le b.to_fields_vec) ∧
    (∀ (fl : List Field') (b : Board),
      (∀ f ∈ fl, ¬(f.top_card = none ∧ f.hidden_cards = ∅)) →
      Board.new fl = some b →
      b.to_fields_vec.Perm fl ∧ List.Sorted field_le b.to_fields_vec) := by
  have hsorted : ∀ b : Board, List.Sorted field_le b.to_fields_vec := by
    intro b
    unfold Board.to_fields_vec
    exact List.sorted_insertionSort field_le _
  refine ⟨hsorted, fun fl b hne hnew => ⟨?_, hsorted b⟩⟩
  have hFields : b.fields = fl.map (fun f => (f.i, f.j, CompactField.fromField f)) :=
    from_fields_list_some _ b hnew
  unfold Board.to_fields_vec
  rw [hFields, List.filterMap_map]
  have hfm : fl.filterMap ((fun f : Int × Int × CompactField =>
      if f.2.2.is_empty then none
      else some ⟨f.1, f.2.1, f.2.2.top_card, f.2.2.hidden_cards⟩) ∘
      (fun f => (f.i, f.j, CompactField.fromField f))) = fl := by
    apply filterMap_eq_self_of_some
    intro a ha
    simp only [Function.comp_apply]
    rw [if_neg (show ¬(CompactField.fromField a).is_empty from hne a ha)]
    rfl
  rw [hfm]
  exact List.perm_insertionSort field_le fl

def exFieldsList : List Field' :=
  [⟨-1, 0, some ⟨Rank.four, Suit.diamond⟩, ∅⟩,
    ⟨-1, -1, some ⟨Rank.five, Suit.diamond⟩, ∅⟩,
    ⟨-1, -2, some ⟨Rank.six, Suit.diamond⟩, ∅⟩,
    ⟨-1, -3, some ⟨Rank.ace, Suit.spade⟩, ∅⟩]

theorem c7_witness :
    ∃ b, Board.new exFieldsList = some b ∧ b.to_fields_vec.Perm exFieldsList ∧
      List.Sorted field_le b.to_fields_vec := by
  cases hnew : Board.new exFieldsList with
  | none =>
    have hok : (Board.new exFieldsList).isSome = true := by decide
    rw [hnew] at hok
    exact absurd hok (by simp)
  | some b =>
    obtain ⟨h1, h2⟩ := c7_round_trip.2 exFieldsList b (by decide) hnew
    exact ⟨b, rfl, h1, h2⟩

/-- C8 counterexample: a board whose bounding box sits at the corner of the `i8` range.
`is_in_bounds (-128, -128)` is true (the occupied cell itself), yet `playable_area`'s
`i8` arithmetic wraps around, producing a rectangle that does not contain the point —
so the claimed equivalence fails as stated. -/
theorem c8_counterexample :
    exExtreme.Wf ∧ exExtreme.is_in_bounds (-128) (-128) = true ∧
    ¬ exExtreme.playable_area.contains_point (-128) (-128) := by decide

/-- C8 (amended): `is_in_bounds` evaluates with `checked_sub`, so it never overflows
and returns a boolean for every coordinate pair; for every well-formed board whose
bounding box additionally keeps `playable_area`'s `i8` arithmetic from overflowing
(`-124 ≤ i_max`, `i_min ≤ 123`, and likewise on the `j` axis), `is_in_bounds (i, j)`
is true exactly when `(i, j)` lies within the rectangle returned by `playable_area`,
for all integer coordinates including the extremes of the signed 8-bit domain. -/
theorem c8_amended (b : Board) (hWf : b.Wf)
    (hsafe : -124 ≤ b.bbox.i_max ∧ b.bbox.i_min ≤ 123 ∧ -124 ≤ b.bbox.j_max ∧
      b.bbox.j_min ≤ 123) :
    ∀ i j : Int, b.is_in_bounds i j = true ↔ b.playable_area.contains_point i j := by
  obtain ⟨_, _, _, _, hle_i, hle_j, _, _, hr1, hr2, hr3, hr4⟩ := hWf
  intro i j
  rw [is_in_bounds_iff b i j hle_i hle_j,
    playable_area_eq b hsafe.1 hsafe.2.1 hsafe.2.2.1 hsafe.2.2.2 hle_i hle_j hr2 hr3
      hr1 hr4]
  exact Iff.rfl

theorem c8_witness :
    exHorizontal.is_in_bounds 0 0 = true ↔
      exHorizontal.playable_area.contains_point 0 0 :=
  c8_amended exHorizontal (by decide) (by decide) 0 0

/-- C6 counterexample: on the corner board, `possible_to_play_card` is true (fewer than
16 occupied cells), yet `locations_for_card` is empty, because `playable_area`'s `i8`
arithmetic wraps around at the extreme bounding box — refuting the claimed equivalence
as stated for every board. -/
theorem c6_counterexample :
    exExtreme.Wf ∧
    exExtreme.possible_to_play_card canPlaceAny ⟨Rank.ace, Suit.diamond⟩ = true ∧
    (exExtreme.locations_for_card canPlaceAny ⟨Rank.ace, Suit.diamond⟩).coords = ∅ := by
  decide

/-- C6 (amended): for every well-formed board whose bounding box keeps
`playable_area`'s `i8` arithmetic from overflowing (`-124 ≤ i_max`, `i_min ≤ 123`, and
likewise on the `j` axis) and every card: `possible_to_play_card` is true iff
`locations_for_card` is non-empty; in particular it is true unconditionally whenever
fewer than 16 cells are occupied; and every coordinate in `locations_for_card`, played
with no King target, either succeeds under `calculate` or fails only with the
King-missing-target rejection. -/
theorem c6_amended (canPlace : Card → Card → Bool) (b : Board) (card : Card)
    (hWf : b.Wf)
    (hsafe : -124 ≤ b.bbox.i_max ∧ b.bbox.i_min ≤ 123 ∧ -124 ≤ b.bbox.j_max ∧
      b.bbox.j_min ≤ 123) :
    (b.possible_to_play_card canPlace card = true ↔
      (b.locations_for_card canPlace card).coords ≠ ∅) ∧
    (b.fields.length < 16 → b.possible_to_play_card canPlace card = true) ∧
    (∀ p : Int × Int, p ∈ (b.locations_for_card canPlace card).coords →
      (∃ ce, b.calculate canPlace ⟨card, p.1, p.2, none⟩ = Except.ok ce) ∨
      b.calculate canPlace ⟨card, p.1, p.2, none⟩ =
        Except.error IllegalCardPlayed.noTargetForKingAbility) := by
  obtain ⟨hne, hnd, hcne, hbbox, hle_i, hle_j, hsp_i, hsp_j, hr1, hr2, hr3, hr4⟩ := hWf
  simp only [BOARD_SIZE] at hsp_i hsp_j
  have hpa := playable_area_eq b hsafe.1 hsafe.2.1 hsafe.2.2.1 hsafe.2.2.2 hle_i hle_j
    hr2 hr3 hr1 hr4
  have hmem : ∀ p : Int × Int, p ∈ (b.locations_for_card canPlace card).coords ↔
      (b.bbox.i_max - 3 ≤ p.1 ∧ p.1 ≤ b.bbox.i_min + 3 ∧
       b.bbox.j_max - 3 ≤ p.2 ∧ p.2 ≤ b.bbox.j_min + 3) ∧
      ∀ f ∈ b.fields, f.2.2.can_place_card canPlace card = false →
        (f.1, f.2.1) ≠ p := by
    intro p
    rw [mem_locations_for_card, hpa]
  have part2 : b.fields.length < 16 → b.possible_to_play_card canPlace card = true := by
    intro hlen
    unfold Board.possible_to_play_card
    rw [if_pos hlen]
  have part3 : ∀ p : Int × Int, p ∈ (b.locations_for_card canPlace card).coords →
      (∃ ce, b.calculate canPlace ⟨card, p.1, p.2, none⟩ = Except.ok ce) ∨
      b.calculate canPlace ⟨card, p.1, p.2, none⟩ =
        Except.error IllegalCardPlayed.noTargetForKingAbility := by
    intro p hp
    obtain ⟨hrect, hnorem⟩ := (hmem p).1 hp
    have hbnd : b.is_in_bounds p.1 p.2 = true :=
      (is_in_bounds_iff b p.1 p.2 hle_i hle_j).2
        ⟨hrect.1, hrect.2.1, hrect.2.2.1, hrect.2.2.2⟩
    cases hc : b.calculate canPlace ⟨card, p.1, p.2, none⟩ with
    | ok ce => exact Or.inl ⟨ce, rfl⟩
    | error e =>
      rcases calculate_error_inv canPlace b ⟨card, p.1, p.2, none⟩ e hc with
        ⟨_, hoob⟩ | ⟨f, c, _, _, hget, htop, hcp⟩ | ⟨_, _, _, hking⟩
      · have hoob' : b.is_in_bounds p.1 p.2 = false := hoob
        rw [hbnd] at hoob'
        exact absurd hoob' (by simp)
      · have hget' : b.get p.1 p.2 = some f := hget
        have hmemf : (p.1, p.2, f) ∈ b.fields := (get_eq_some_iff b hnd p.1 p.2 f).1 hget'
        have hrej : f.can_place_card canPlace card = false := by
          simp only [CompactField.can_place_card, htop]
          exact hcp
        exact absurd rfl (hnorem (p.1, p.2, f) hmemf hrej)
      · rcases hking with ⟨he, _⟩ | ⟨ti, tj, _, htg, _⟩ | ⟨ti, tj, _, _, htg, _⟩
        · exact Or.inr (by rw [he])
        · have htg' : (none : Option (Int × Int)) = some (ti, tj) := htg
          exact absurd htg' (by simp)
        · have htg' : (none : Option (Int × Int)) = some (ti, tj) := htg
          exact absurd htg' (by simp)
  refine ⟨⟨?_, ?_⟩, part2, part3⟩
  · intro hposs
    by_cases hlen : b.fields.length < 16
    · have hScard : ((b.fields.map (fun f => (f.1, f.2.1))).toFinset).card ≤
          b.fields.length := by
        calc ((b.fields.map (fun f => (f.1, f.2.1))).toFinset).card ≤
            (b.fields.map (fun f => (f.1, f.2.1))).length := List.toFinset_card_le _
          _ = b.fields.length := List.length_map _ _
      have hrcard : 16 ≤ (Finset.Icc (b.bbox.i_max - 3) (b.bbox.i_min + 3) ×ˢ
          Finset.Icc (b.bbox.j_max - 3) (b.bbox.j_min + 3)).card := by
        rw [Finset.card_product, Int.card_Icc, Int.card_Icc]
        have h1 : 4 ≤ (b.bbox.i_min + 3 + 1 - (b.bbox.i_max - 3)).toNat := by omega
        have h2 : 4 ≤ (b.bbox.j_min + 3 + 1 - (b.bbox.j_max - 3)).toNat := by omega
        calc (16 : Nat) = 4 * 4 := rfl
          _ ≤ _ := Nat.mul_le_mul h1 h2
      have hsd : 0 < ((Finset.Icc (b.bbox.i_max - 3) (b.bbox.i_min + 3) ×ˢ
          Finset.Icc (b.bbox.j_max - 3) (b.bbox.j_min + 3)) \
          (b.fields.map (fun f => (f.1, f.2.1))).toFinset).card := by
        have hub := Finset.le_card_sdiff
          ((b.fields.map (fun f => (f.1, f.2.1))).toFinset)
          (Finset.Icc (b.bbox.i_max - 3) (b.bbox.i_min + 3) ×ˢ
            Finset.Icc (b.bbox.j_max - 3) (b.bbox.j_min + 3))
        omega
      obtain ⟨p, hpmem⟩ := Finset.card_pos.1 hsd
      rw [Finset.mem_sdiff] at hpmem
      intro hempty
      have hpin : p ∈ (b.locations_for_card canPlace card).coords := by
        rw [hmem]
        constructor
        · have hq := hpmem.1
          rw [Finset.mem_product, Finset.mem_Icc, Finset.mem_Icc] at hq
          exact ⟨hq.1.1, hq.1.2, hq.2.1, hq.2.2⟩
        · intro f hf _ hco
          apply hpmem.2
          rw [List.mem_toFinset]
          exact hco ▸ List.mem_map.2 ⟨f, hf, rfl⟩
      rw [hempty] at hpin
      exact absurd hpin (Finset.not_mem_empty p)
    · unfold Board.possible_to_play_card at hposs
      rw [if_neg hlen] at hposs
      obtain ⟨f0, hf0, hacc⟩ := List.any_eq_true.1 hposs
      have hacc' : f0.2.2.can_place_card canPlace card = true := hacc
      intro hempty
      have hpin : (f0.1, f0.2.1) ∈ (b.locations_for_card canPlace card).coords := by
        rw [hmem]
        obtain ⟨hb1, hb2, hb3, hb4⟩ := hbbox f0 hf0
        refine ⟨⟨show b.bbox.i_max - 3 ≤ f0.1 by omega,
          show f0.1 ≤ b.bbox.i_min + 3 by omega,
          show b.bbox.j_max - 3 ≤ f0.2.1 by omega,
          show f0.2.1 ≤ b.bbox.j_min + 3 by omega⟩, ?_⟩
        intro f hf hrej hco
        have hfe : f = f0 := nodup_coords_eq b.fields hnd f f0 hf hf0 hco
        rw [hfe] at hrej
        rw [hrej] at hacc'
        exact absurd hacc' (by simp)
      rw [hempty] at hpin
      exact absurd hpin (Finset.not_mem_empty _)
  · intro hnonempty
    by_cases hlen : b.fields.length < 16
    · exact part2 hlen
    · unfold Board.possible_to_play_card
      rw [if_neg hlen]
      by_contra hposs
      have hall : ∀ f ∈ b.fields, f.2.2.can_place_card canPlace card = false := by
        intro f hf
        cases hx : f.2.2.can_place_card canPlace card with
        | false => rfl
        | true => exact absurd (List.any_eq_true.2 ⟨f, hf, hx⟩) hposs
      apply hnonempty
      rw [Finset.eq_empty_iff_forall_not_mem]
      intro p hp
      obtain ⟨hrect, hnorem⟩ := (hmem p).1 hp
      have hScard : ((b.fields.map (fun f => (f.1, f.2.1))).toFinset).card =
          b.fields.length := by
        rw [List.toFinset_card_of_nodup hnd, List.length_map]
      have hSsub : (b.fields.map (fun f => (f.1, f.2.1))).toFinset ⊆
          Finset.Icc b.bbox.i_min b.bbox.i_max ×ˢ
            Finset.Icc b.bbox.j_min b.bbox.j_max := by
        intro q hq
        rw [List.mem_toFinset] at hq
        obtain ⟨f, hf, hfq⟩ := List.mem_map.1 hq
        obtain ⟨h1, h2, h3, h4⟩ := hbbox f hf
        subst hfq
        rw [Finset.mem_product, Finset.mem_Icc, Finset.mem_Icc]
        exact ⟨⟨h1, h2⟩, h3, h4⟩
      have hBcard : (Finset.Icc b.bbox.i_min b.bbox.i_max ×ˢ
          Finset.Icc b.bbox.j_min b.bbox.j_max).card ≤ 16 := by
        rw [Finset.card_product, Int.card_Icc, Int.card_Icc]
        have h1 : (b.bbox.i_max + 1 - b.bbox.i_min).toNat ≤ 4 := by omega
        have h2 : (b.bbox.j_max + 1 - b.bbox.j_min).toNat ≤ 4 := by omega
        calc (b.bbox.i_max + 1 - b.bbox.i_min).toNat *
            (b.bbox.j_max + 1 - b.bbox.j_min).toNat ≤ 4 * 4 := Nat.mul_le_mul h1 h2
          _ = 16 := rfl
      have heq : (b.fields.map (fun f => (f.1, f.2.1))).toFinset =
          Finset.Icc b.bbox.i_min b.bbox.i_max ×ˢ
            Finset.Icc b.bbox.j_min b.bbox.j_max :=
        Finset.eq_of_subset_of_card_le hSsub (by omega)
      have hspan : b.bbox.i_max = b.bbox.i_min + 3 ∧ b.bbox.j_max = b.bbox.j_min + 3 := by
        have h16 : 16 ≤ (Finset.Icc b.bbox.i_min b.bbox.i_max ×ˢ
            Finset.Icc b.bbox.j_min b.bbox.j_max).card := by
          rw [← heq]
          omega
        rw [Finset.card_product, Int.card_Icc, Int.card_Icc] at h16
        have h1 : (b.bbox.i_max + 1 - b.bbox.i_min).toNat ≤ 4 := by omega
        have h2 : (b.bbox.j_max + 1 - b.bbox.j_min).toNat ≤ 4 := by omega
        have h3 : (b.bbox.i_max + 1 - b.bbox.i_min).toNat *
            (b.bbox.j_max + 1 - b.bbox.j_min).toNat ≤
            4 * (b.bbox.j_max + 1 - b.bbox.j_min).toNat :=
          Nat.mul_le_mul h1 (Nat.le_refl _)
        have h4 : (b.bbox.i_max + 1 - b.bbox.i_min).toNat *
            (b.bbox.j_max + 1 - b.bbox.j_min).toNat ≤
            (b.bbox.i_max + 1 - b.bbox.i_min).toNat * 4 :=
          Nat.mul_le_mul (Nat.le_refl _) h2
        have h5 : 16 ≤ 4 * (b.bbox.j_max + 1 - b.bbox.j_min).toNat := le_trans h16 h3
        have h6 : 16 ≤ (b.bbox.i_max + 1 - b.bbox.i_min).toNat * 4 := le_trans h16 h4
        omega
      obtain ⟨hsi, hsj⟩ := hspan
      have hpbox : p ∈ Finset.Icc b.bbox.i_min b.bbox.i_max ×ˢ
          Finset.Icc b.bbox.j_min b.bbox.j_max := by
        rw [Finset.mem_product, Finset.mem_Icc, Finset.mem_Icc]
        obtain ⟨hq1, hq2, hq3, hq4⟩ := hrect
        exact ⟨⟨by omega, by omega⟩, by omega, by omega⟩
      rw [← heq, List.mem_toFinset] at hpbox
      obtain ⟨f, hf, hfq⟩ := List.mem_map.1 hpbox
      exact hnorem f hf (hall f hf) hfq

theorem c6_witness :
    ((exHorizontal.possible_to_play_card canPlaceAny ⟨Rank.ace, Suit.diamond⟩ = true ↔
      (exHorizontal.locations_for_card canPlaceAny ⟨Rank.ace, Suit.diamond⟩).coords ≠
        ∅) ∧
     (exHorizontal.fields.length < 16 →
      exHorizontal.possible_to_play_card canPlaceAny ⟨Rank.ace, Suit.diamond⟩ = true) ∧
     (∀ p : Int × Int,
        p ∈ (exHorizontal.locations_for_card canPlaceAny
          ⟨Rank.ace, Suit.diamond⟩).coords →
        (∃ ce, exHorizontal.calculate canPlaceAny
          ⟨⟨Rank.ace, Suit.diamond⟩, p.1, p.2, none⟩ = Except.ok ce) ∨
        exHorizontal.calculate canPlaceAny ⟨⟨Rank.ace, Suit.diamond⟩, p.1, p.2, none⟩ =
          Except.error IllegalCardPlayed.noTargetForKingAbility)) :=
  c6_amended canPlaceAny exHorizontal ⟨Rank.ace, Suit.diamond⟩ (by decide) (by decide)
